import Mathlib

/-!
# A verification development for the `confetti` configuration-language reader

This file gives a shallow embedding, in Lean, of the Go implementation of the
Confetti configuration language (files `types.go`, `lexer.go`, `parser.go`):
the character classification, the lexer (`NextToken` and its scanning
routines), the recursive-descent parser (`parseDirectives`, `parseDirective`,
`parseArguments`, `parseBlock`), and the canonical serializer
(`printDirectives`).  Input is modelled as a `List Char` of Unicode scalar
values (the Go code validates UTF-8 up front and then works scalar by scalar,
so a list of scalar values is the faithful state after that validation; Lean's
`Char` is exactly a Unicode scalar value).  The parser is written over an
explicit fuel parameter; `Parse` runs it with fuel `4 * input.length + 8`,
which is proved sufficient below.
-/

namespace Confetti

/-! ## Character classification (`types.go`) -/

/-- Go `unicode.Is(unicode.White_Space, r)`: the Unicode `White_Space`
property, a fixed list of 25 code points. -/
def unicodeWhiteSpace (c : Char) : Bool :=
  let n := c.toNat
  (0x09 ≤ n && n ≤ 0x0D) || n == 0x20 || n == 0x85 || n == 0xA0 || n == 0x1680 ||
  (0x2000 ≤ n && n ≤ 0x200A) || n == 0x2028 || n == 0x2029 || n == 0x202F ||
  n == 0x205F || n == 0x3000

/-- Go `unicode.Is(unicode.Cf, r)`: the format-character category (ranges per
the Unicode character database). -/
def unicodeCf (c : Char) : Bool :=
  let n := c.toNat
  n == 0xAD || (0x600 ≤ n && n ≤ 0x605) || n == 0x61C || n == 0x6DD ||
  n == 0x70F || (0x890 ≤ n && n ≤ 0x891) || n == 0x8E2 || n == 0x180E ||
  (0x200B ≤ n && n ≤ 0x200F) || (0x202A ≤ n && n ≤ 0x202E) ||
  (0x2060 ≤ n && n ≤ 0x2064) || (0x2066 ≤ n && n ≤ 0x206F) || n == 0xFEFF ||
  (0xFFF9 ≤ n && n ≤ 0xFFFB) || n == 0x110BD || n == 0x110CD ||
  (0x13430 ≤ n && n ≤ 0x1343F) || (0x1BCA0 ≤ n && n ≤ 0x1BCA3) ||
  (0x1D173 ≤ n && n ≤ 0x1D17A) || n == 0xE0001 || (0xE0020 ≤ n && n ≤ 0xE007F)

/-- Go `unicode.Is(unicode.Cc, r)`: the control-character category,
`U+0000..U+001F` and `U+007F..U+009F`. -/
def unicodeCc (c : Char) : Bool :=
  let n := c.toNat
  n ≤ 0x1F || (0x7F ≤ n && n ≤ 0x9F)

/-- Go `unicode.Is(unicode.Cs, r)`: the surrogate category
`U+D800..U+DFFF`.  A Lean `Char` is a Unicode scalar value, so this test is
always false here, exactly as in Go after UTF-8 validation (valid UTF-8 never
decodes to a surrogate). -/
def unicodeCs (c : Char) : Bool :=
  let n := c.toNat
  0xD800 ≤ n && n ≤ 0xDFFF

/-- Go `unicode.In(r, unicode.Co)`: the private-use category. -/
def unicodeCo (c : Char) : Bool :=
  let n := c.toNat
  (0xE000 ≤ n && n ≤ 0xF8FF) || (0xF0000 ≤ n && n ≤ 0xFFFFD) ||
  (0x100000 ≤ n && n ≤ 0x10FFFD)

/-- Modelled from the spec: the final test of `IsForbidden`
(`!unicode.IsPrint(r) && !unicode.IsControl(r) && !unicode.IsSpace(r) &&
!unicode.In(r, unicode.Co)`) detects "any scalar value that is neither
printable, whitespace, nor assigned to a Unicode category — i.e., genuinely
unassigned code points".  It is decided by the full Unicode character
database, which is part of the Go standard library, not of this repository,
and is far too large to reproduce; it is modelled here as `false` (every code
point reaching this test is treated as assigned).  No theorem in this file
depends on its value: every code point the claims exercise is decided by one
of the earlier, faithfully reproduced tests. -/
def unicodeUnassigned (_c : Char) : Bool := false

/-- `IsLineTerminator` from `types.go`: LF, VT, FF, CR, NEL, LS, PS. -/
def IsLineTerminator (c : Char) : Bool :=
  let n := c.toNat
  n == 0x0A || n == 0x0B || n == 0x0C || n == 0x0D || n == 0x85 ||
  n == 0x2028 || n == 0x2029

/-- `IsWhitespace` from `types.go`: `White_Space` but not a line
terminator. -/
def IsWhitespace (c : Char) : Bool :=
  !IsLineTerminator c && unicodeWhiteSpace c

/-- `IsForbidden` from `types.go`, with the tests in source order:
whitespace never forbidden; format characters allowed; control characters
forbidden; surrogates forbidden; private use allowed; noncharacters
(`U+FDD0..U+FDEF`, and low 16 bits `0xFFFE`/`0xFFFF`) forbidden; finally the
unassigned-code-point test. -/
def IsForbidden (c : Char) : Bool :=
  let n := c.toNat
  if unicodeWhiteSpace c then false
  else if unicodeCf c then false
  else if unicodeCc c then true
  else if unicodeCs c then true
  else if unicodeCo c then false
  else if 0xFDD0 ≤ n && n ≤ 0xFDEF then true
  else if n &&& 0xFFFE == 0xFFFE then true
  else if unicodeUnassigned c then true
  else false

/-- `IsReservedPunctuator` from `types.go`. -/
def IsReservedPunctuator (c : Char) : Bool :=
  c == '"' || c == '#' || c == ';' || c == '\x7b' || c == '\x7d'

/-- `IsArgumentChar` from `types.go`. -/
def IsArgumentChar (c : Char) : Bool :=
  !(IsWhitespace c || IsLineTerminator c || IsReservedPunctuator c || IsForbidden c)

/-- The noncharacter test of `IsForbidden` in isolation (used to state the
claims about noncharacter code points). -/
def isNonCharacter (c : Char) : Bool :=
  let n := c.toNat
  (0xFDD0 ≤ n && n ≤ 0xFDEF) || (n &&& 0xFFFE == 0xFFFE)

/-! ## Tokens and errors -/

/-- `TokenType` from `types.go`. -/
inductive TokenType where
  | eof
  | newline
  | semicolon
  | leftBrace
  | rightBrace
  | argument
  | comment
  | lineContinuation
deriving DecidableEq, Repr

/-- `Token` from `types.go`: kind, decoded value, 1-based position. -/
structure Token where
  type : TokenType
  value : String
  line : Nat
  column : Nat
deriving DecidableEq, Repr

/-- The error outcomes of the lexer and parser; one constructor per
`fmt.Errorf` site in `lexer.go`/`parser.go`, carrying the position data the
message interpolates. -/
inductive Err where
  /-- "forbidden character at line %d, column %d" (`NextToken`). -/
  | forbiddenChar (line col : Nat)
  /-- "forbidden character in comment at line %d" (`scanComment`). -/
  | forbiddenInComment (line : Nat)
  /-- "forbidden character in string at line %d" (single and triple quoted). -/
  | forbiddenInString (line : Nat)
  /-- "unexpected newline in single-quoted string at line %d". -/
  | unexpectedNewlineInString (line : Nat)
  /-- "invalid escape in quoted string at line %d" (`scanSingleQuoted`). -/
  | invalidEscapeQuoted (line : Nat)
  /-- "invalid escape in triple-quoted string at line %d". -/
  | invalidEscapeTriple (line : Nat)
  /-- "invalid escape sequence at line %d, column %d" (`scanSimpleArgument`). -/
  | invalidEscapeSimple (line col : Nat)
  /-- "illegal escape character" (`scanSimpleArgument`, backslash-newline
  after accumulated characters). -/
  | illegalEscapeChar
  /-- "unterminated quoted string at line %d". -/
  | unterminatedString (line : Nat)
  /-- "unterminated triple-quoted string at line %d". -/
  | unterminatedTriple (line : Nat)
  /-- "unexpected character '%c' at line %d, column %d" (`NextToken`). -/
  | unexpectedChar (c : Char) (line col : Nat)
  /-- "directive must have at least one argument at line %d"
  (`parseDirective`): the `MissingArguments` error of the spec. -/
  | missingArguments (line : Nat)
  /-- "unexpected '\x7d' without matching '\x7b' at line %d"
  (`parseDirectives` at top level): the first `UnmatchedBrace` site. -/
  | unexpectedRightBrace (line : Nat)
  /-- "expected '\x7b' at line %d, got %v" (`parseBlock` entry guard). -/
  | expectedLeftBrace (line : Nat) (got : TokenType)
  /-- "expected '\x7d' at line %d, got %v" (`parseBlock` close guard): the
  second `UnmatchedBrace` site. -/
  | expectedRightBrace (line : Nat) (got : TokenType)
  /-- "expected newline, semicolon, or block after directive at line %d,
  got %v" (`parseDirective`). -/
  | expectedTerminator (line : Nat) (got : TokenType)
deriving DecidableEq, Repr

/-- The spec's `UnmatchedBrace` error kind covers the two brace error sites
of `parser.go` (§7 of the spec). -/
def Err.isUnmatchedBrace : Err → Bool
  | .unexpectedRightBrace _ => true
  | .expectedRightBrace _ _ => true
  | _ => false

/-! ## The lexer (`lexer.go`) -/

/-- Lexer state: the unconsumed input (`input[pos:]` in Go), the 1-based
line and column counters, and whether the first `NextToken` call is still
pending (Go tests `l.pos == 0` to validate UTF-8 and skip a leading BOM
once; after any consumption `pos` is nonzero, and when nothing was consumed
a repeat of the check is a no-op). -/
structure Lexer where
  rem : List Char
  line : Nat
  column : Nat
  start : Bool
deriving DecidableEq, Repr

/-- `NewLexer`. -/
def initLexer (input : List Char) : Lexer :=
  { rem := input, line := 1, column := 1, start := true }

/-- Go `l.peek()`: the next scalar value, or the zero rune past the end. -/
def peekChar : List Char → Char
  | [] => Char.ofNat 0
  | c :: _ => c

/-- `skipWhitespace`: drop leading whitespace, advancing the column. -/
def skipWS : List Char → Nat → List Char × Nat
  | [], col => ([], col)
  | c :: rest, col =>
    if IsWhitespace c then skipWS rest (col + 1) else (c :: rest, col)

/-- The BOM skip performed on the first `NextToken` call: a leading
`U+FEFF` (UTF-8 `EF BB BF`) is dropped. -/
def skipBom : List Char → List Char
  | c :: rest => if c = '\uFEFF' then rest else c :: rest
  | [] => []

/-- `scanNewline`: the token is made at the current position, the
terminator is consumed (both characters when CR is immediately followed by
LF), the line counter advances by one and the column resets to 1. -/
def scanNewline (l : Lexer) : Token × Lexer :=
  let tok : Token := ⟨.newline, "", l.line, l.column⟩
  match l.rem with
  | '\r' :: '\n' :: rest => (tok, { l with rem := rest, line := l.line + 1, column := 1 })
  | _ :: rest => (tok, { l with rem := rest, line := l.line + 1, column := 1 })
  | [] => (tok, { l with line := l.line + 1, column := 1 })

/-- The scanning loop of `scanComment`: accumulate characters up to (but
excluding) the next line terminator or end of input; a forbidden character
fails the scan. -/
def scanCommentAux (line : Nat) (cs : List Char) (col : Nat) (acc : String) :
    Except Err (String × List Char × Nat) :=
  match cs with
  | [] => .ok (acc, [], col)
  | c :: rest =>
    if IsLineTerminator c then .ok (acc, c :: rest, col)
    else if IsForbidden c then .error (.forbiddenInComment line)
    else scanCommentAux line rest (col + 1) (acc.push c)

/-- `scanComment`: the value spans from `#` to the break point; the token is
made at the position reached after the scan. -/
def scanComment (l : Lexer) : Except Err (Token × Lexer) :=
  match l.rem with
  | [] => .ok (⟨.comment, "#", l.line, l.column⟩, l)
  | _ :: rest =>
    match scanCommentAux l.line rest (l.column + 1) "#" with
    | .error e => .error e
    | .ok (v, rem, col) =>
      .ok (⟨.comment, v, l.line, col⟩, { l with rem := rem, column := col })

/-- The three outcomes of the `scanSimpleArgument` loop: a completed
argument token, a standalone line continuation, or an error. -/
inductive SimpleScan where
  | tok (value : String) (rem : List Char) (col : Nat)
  | cont (rem : List Char) (line col : Nat)
  | fail (e : Err)
deriving DecidableEq, Repr

/-- The scanning loop of `scanSimpleArgument`.  A backslash escapes the next
character; a backslash before a line terminator is a line continuation only
when nothing has been accumulated (otherwise "illegal escape character");
the continuation consumes the terminator (both characters for CRLF), bumps
the line, skips following whitespace and yields the dedicated
line-continuation outcome.  Scanning stops before the first
non-argument-character. -/
def scanSimpleAux (line : Nat) : List Char → Nat → String → SimpleScan
  | [], col, buf => .tok buf [] col
  | c :: rest, col, buf =>
    if c = '\\' then
      let next := peekChar rest
      if IsLineTerminator next then
        if buf.length > 0 then .fail .illegalEscapeChar
        else
          match rest with
          | [] => .fail (.invalidEscapeSimple line (col + 1))
          | '\r' :: '\n' :: rest3 =>
            let s := skipWS rest3 1
            .cont s.1 (line + 1) s.2
          | _ :: rest2 =>
            let s := skipWS rest2 1
            .cont s.1 (line + 1) s.2
      else if !IsWhitespace next && !IsLineTerminator next && !IsForbidden next then
        match rest with
        | [] => .fail (.invalidEscapeSimple line (col + 1))
        | n2 :: rest2 => scanSimpleAux line rest2 (col + 2) (buf.push n2)
      else .fail (.invalidEscapeSimple line (col + 1))
    else if !IsArgumentChar c then .tok buf (c :: rest) col
    else scanSimpleAux line rest (col + 1) (buf.push c)

/-- `scanSimpleArgument`: the argument token is made at the position of its
first character; a standalone continuation yields a `lineContinuation` token
at the position reached after the whitespace skip. -/
def scanSimpleArgument (l : Lexer) : Except Err (Token × Lexer) :=
  match scanSimpleAux l.line l.rem l.column "" with
  | .fail e => .error e
  | .tok v rem col =>
    .ok (⟨.argument, v, l.line, l.column⟩, { l with rem := rem, column := col })
  | .cont rem line col =>
    .ok (⟨.lineContinuation, "", line, col⟩, { l with rem := rem, line := line, column := col })

/-- The scanning loop of `scanSingleQuoted`: a `"` closes the string; a
backslash before a line terminator is a line continuation (CRLF consumed as
a pair, nothing appended, line bumped); a backslash otherwise escapes its
target verbatim when the target is not whitespace, a line terminator, or
forbidden; an unescaped line terminator and a forbidden character are
errors; end of input is "unterminated quoted string". -/
def singleQuotedAux : List Char → Nat → Nat → String →
    Except Err (String × List Char × Nat × Nat)
  | [], line, _col, _buf => .error (.unterminatedString line)
  | c :: rest, line, col, buf =>
    if c = '"' then .ok (buf, rest, line, col + 1)
    else if c = '\\' then
      let next := peekChar rest
      if IsLineTerminator next then
        match rest with
        | [] => .error (.invalidEscapeQuoted line)
        | '\r' :: '\n' :: rest3 => singleQuotedAux rest3 (line + 1) 1 buf
        | _ :: rest2 => singleQuotedAux rest2 (line + 1) 1 buf
      else if !IsWhitespace next && !IsLineTerminator next && !IsForbidden next then
        match rest with
        | [] => .error (.invalidEscapeQuoted line)
        | n2 :: rest2 => singleQuotedAux rest2 line (col + 2) (buf.push n2)
      else .error (.invalidEscapeQuoted line)
    else if IsLineTerminator c then .error (.unexpectedNewlineInString line)
    else if IsForbidden c then .error (.forbiddenInString line)
    else singleQuotedAux rest line (col + 1) (buf.push c)

/-- The scanning loop of `scanTripleQuoted`: three consecutive `"` close the
string; a backslash escapes its target verbatim when the target is not
whitespace, a line terminator, or forbidden — there is no line-continuation
branch here, so a backslash before a line terminator is an
"invalid escape in triple-quoted string" error; forbidden characters error;
everything else (line terminators included) is copied verbatim; end of input
is "unterminated triple-quoted string".  (As in the Go source, the line
counter is not advanced for terminators copied into the value.) -/
def tripleQuotedAux : List Char → Nat → Nat → String →
    Except Err (String × List Char × Nat × Nat)
  | '"' :: '"' :: '"' :: rest, line, col, buf => .ok (buf, rest, line, col + 3)
  | [], line, _col, _buf => .error (.unterminatedTriple line)
  | c :: rest, line, col, buf =>
    if c = '\\' then
      let next := peekChar rest
      if !IsWhitespace next && !IsLineTerminator next && !IsForbidden next then
        match rest with
        | [] => .error (.invalidEscapeTriple line)
        | n2 :: rest2 => tripleQuotedAux rest2 line (col + 2) (buf.push n2)
      else .error (.invalidEscapeTriple line)
    else if IsForbidden c then .error (.forbiddenInString line)
    else tripleQuotedAux rest line (col + 1) (buf.push c)

/-- `scanQuotedArgument`: consume the opening `"`; two more `"` begin a
triple-quoted scan; a single following `"` closes an empty single-quoted
string (token at the opening quote); otherwise scan single-quoted (the token
position is the character after the opening quote, as in the source).  The
fall-through arm is unreachable: the function is only entered at a `"`. -/
def scanQuotedArgument (l : Lexer) : Except Err (Token × Lexer) :=
  match l.rem with
  | '"' :: '"' :: '"' :: rest =>
    match tripleQuotedAux rest l.line (l.column + 3) "" with
    | .error e => .error e
    | .ok (v, rem, line, col) =>
      .ok (⟨.argument, v, l.line, l.column + 3⟩,
           { l with rem := rem, line := line, column := col })
  | '"' :: '"' :: rest =>
    .ok (⟨.argument, "", l.line, l.column⟩, { l with rem := rest, column := l.column + 2 })
  | '"' :: rest =>
    match singleQuotedAux rest l.line (l.column + 1) "" with
    | .error e => .error e
    | .ok (v, rem, line, col) =>
      .ok (⟨.argument, v, l.line, l.column + 1⟩,
           { l with rem := rem, line := line, column := col })
  | _ => .error (.unexpectedChar (peekChar l.rem) l.line l.column)

/-- The dispatch step of `NextToken` from `lexer.go`, after the BOM skip
(the UTF-8 validity check is inherent in the `List Char` representation)
and the whitespace skip: end of input yields the EOF token; a Control-Z
yields EOF when it is the very last character and a forbidden-character
error otherwise; then forbidden characters error, and the first character
dispatches to the newline / comment / structural / quoted /
simple-argument scans. -/
def nextTokenAt (l : Lexer) : Except Err (Token × Lexer) :=
  match l.rem with
  | [] => .ok (⟨.eof, "", l.line, l.column⟩, l)
  | r :: rest =>
    if r = '\x1A' then
      match rest with
      | _ :: _ => .error (.forbiddenChar l.line l.column)
      | [] => .ok (⟨.eof, "", l.line, l.column⟩, l)
    else if IsForbidden r then .error (.forbiddenChar l.line l.column)
    else if IsLineTerminator r then .ok (scanNewline l)
    else if r = '#' then scanComment l
    else if r = ';' then
      .ok (⟨.semicolon, ";", l.line, l.column⟩, { l with rem := rest, column := l.column + 1 })
    else if r = '\x7b' then
      .ok (⟨.leftBrace, "\x7b", l.line, l.column⟩, { l with rem := rest, column := l.column + 1 })
    else if r = '\x7d' then
      .ok (⟨.rightBrace, "\x7d", l.line, l.column⟩, { l with rem := rest, column := l.column + 1 })
    else if r = '"' then scanQuotedArgument l
    else if IsArgumentChar r then scanSimpleArgument l
    else .error (.unexpectedChar r l.line l.column)

/-- `NextToken` proper: the BOM and whitespace skips followed by the
dispatch `nextTokenAt` above. -/
def NextToken (l0 : Lexer) : Except Err (Token × Lexer) :=
  let l1 := if l0.start then { l0 with rem := skipBom l0.rem, start := false } else l0
  let s := skipWS l1.rem l1.column
  nextTokenAt { l1 with rem := s.1, column := s.2 }

/-! ## The tree model and serializer (`types.go`) -/

/-- `Directive`: an ordered argument list and an ordered (possibly empty)
list of subdirectives. -/
inductive Directive where
  | mk (arguments : List String) (subdirectives : List Directive)
deriving Repr

/-- The argument list of a directive. -/
def Directive.arguments : Directive → List String
  | .mk args _ => args

/-- The subdirective list of a directive. -/
def Directive.subdirectives : Directive → List Directive
  | .mk _ subs => subs

mutual
/-- Decidable equality of directives (field-wise, recursively). -/
def Directive.beq : Directive → Directive → Bool
  | .mk a1 s1, .mk a2 s2 => a1 == a2 && Directive.beqList s1 s2
/-- Decidable equality of directive lists. -/
def Directive.beqList : List Directive → List Directive → Bool
  | [], [] => true
  | d :: ds, e :: es => Directive.beq d e && Directive.beqList ds es
  | _, _ => false
end

mutual
theorem Directive.beq_iff : ∀ d e : Directive, Directive.beq d e = true ↔ d = e
  | .mk a1 s1, .mk a2 s2 => by
    simp only [Directive.beq, Bool.and_eq_true, beq_iff_eq, Directive.mk.injEq,
      Directive.beqList_iff s1 s2]
theorem Directive.beqList_iff : ∀ ds es : List Directive,
    Directive.beqList ds es = true ↔ ds = es
  | [], [] => by simp [Directive.beqList]
  | [], _ :: _ => by simp [Directive.beqList]
  | _ :: _, [] => by simp [Directive.beqList]
  | d :: ds, e :: es => by
    simp only [Directive.beqList, Bool.and_eq_true, List.cons.injEq,
      Directive.beq_iff d e, Directive.beqList_iff ds es]
end

instance : DecidableEq Directive := fun d e =>
  decidable_of_iff (Directive.beq d e = true) (Directive.beq_iff d e)

/-- `ConfigurationUnit`: the parse result root, an ordered list of
top-level directives. -/
structure ConfigurationUnit where
  directives : List Directive
deriving Repr, DecidableEq

/-- The indentation written by `printDirectives`: four spaces per nesting
depth. -/
def indentStr : Nat → String
  | 0 => ""
  | n + 1 => indentStr n ++ "    "

/-- The argument part of a printed directive: each argument wrapped in
angle brackets, one space between consecutive arguments, none after the
last. -/
def printArgs : List String → String
  | [] => ""
  | [a] => "<" ++ a ++ ">"
  | a :: rest => "<" ++ a ++ "> " ++ printArgs rest

mutual
/-- One directive as printed by `printDirectives`: indentation, the
arguments, then — only when subdirectives exist — a " [", newline, the
children at depth + 1 and a "]" back at the parent's indentation; every
directive line ends with a newline. -/
def printDirective (d : Directive) (indent : Nat) : String :=
  match d with
  | .mk args subs =>
    indentStr indent ++ printArgs args ++
    (if subs.isEmpty then "" else
      " [\n" ++ printDirectives subs (indent + 1) ++ indentStr indent ++ "]") ++ "\n"
/-- `printDirectives` from `types.go`. -/
def printDirectives (ds : List Directive) (indent : Nat) : String :=
  match ds with
  | [] => ""
  | d :: rest => printDirective d indent ++ printDirectives rest indent
end

/-- `ConfigurationUnit.String`: the canonical rendering. -/
def render (cu : ConfigurationUnit) : String :=
  printDirectives cu.directives 0

/-! ## The parser (`parser.go`) -/

/-- Parser state: the lexer it drives and the current (pre-fetched)
token. -/
structure PState where
  lx : Lexer
  current : Token
deriving DecidableEq, Repr

/-- The result of a fuel-indexed parsing function: success, a parse error,
or fuel exhaustion (proved unreachable for the fuel `Parse` supplies). -/
inductive PResult (α : Type) where
  | ok (a : α)
  | err (e : Err)
  | noFuel
deriving DecidableEq, Repr

/-- Whether a parse result is a success. -/
def PResult.isOk {α : Type} : PResult α → Bool
  | .ok _ => true
  | _ => false

/-- The comment-skipping token fetch of `Parser.advance`, unrolled at most
`n` times.  Each comment token consumes at least the `#` character
(`nextToken_progress` below), so running it with `n = l.rem.length`
(definition `advanceTok`) is the loop's fixpoint: in the base case the
remaining input is empty and `NextToken` can only return the EOF token or
an error, never a comment. -/
def advanceTokAux : Nat → Lexer → Except Err (Token × Lexer)
  | 0, l => NextToken l
  | n + 1, l =>
    match NextToken l with
    | .error e => .error e
    | .ok (t, l2) => if t.type = .comment then advanceTokAux n l2 else .ok (t, l2)

/-- `Parser.advance`'s token fetch: pull tokens, transparently skipping
comments. -/
def advanceTok (l : Lexer) : Except Err (Token × Lexer) :=
  advanceTokAux l.rem.length l

/-- `Parser.advance`: fetch the next non-comment token into `current`. -/
def advanceP (p : PState) : Except Err PState :=
  match advanceTok p.lx with
  | .error e => .error e
  | .ok (t, l) => .ok ⟨l, t⟩

/-- The call tags of the mutually recursive parsing routines of `parser.go`
(`parseDirectives`, `parseDirective`, `parseArguments`, the newline-skip
loop inside `parseDirective`, and `parseBlock`).  The five routines are
embedded as the five arms of the single fuel-recursive driver `runP` below
(one structural recursion instead of a five-way mutual one, so that
concrete runs reduce in the kernel), and are recovered as the definitional
wrappers `parseDirectives` .. `parseBlock`; the unfolding lemmas
`parseDirectives_succ` .. `parseBlock_succ` restate each routine's body
exactly, and all reasoning goes through them. -/
inductive PCall where
  | dirs (insideBlock : Bool) (p : PState)
  | dir (p : PState)
  | args (p : PState)
  | skipNl (p : PState)
  | block (p : PState)

/-- The result type of each parsing routine. -/
@[reducible] def POut : PCall -> Type
  | .dirs _ _ => List Directive × PState
  | .dir _ => Directive × PState
  | .args _ => List String × PState
  | .skipNl _ => PState
  | .block _ => List Directive × PState

/-- One step of the parsing driver: each arm is the body of the
corresponding `parser.go` routine (see the wrappers below for the
routine-by-routine description); `runPrev` performs the recursive calls at
one unit of fuel less. -/
def runPStep (runPrev : (c : PCall) -> PResult (POut c)) : (c : PCall) -> PResult (POut c)
  | .dirs insideBlock p =>
    if p.current.type = .newline then
      match advanceP p with
      | .error e => .err e
      | .ok p2 => runPrev (.dirs insideBlock p2)
    else if p.current.type = .eof then .ok ([], p)
    else if p.current.type = .rightBrace then
      if insideBlock then .ok ([], p)
      else .err (.unexpectedRightBrace p.current.line)
    else
      match runPrev (.dir p) with
      | .err e => .err e
      | .noFuel => .noFuel
      | .ok (d, p2) =>
        match runPrev (.dirs insideBlock p2) with
        | .err e => .err e
        | .noFuel => .noFuel
        | .ok (ds, p3) => .ok (d :: ds, p3)
  | .dir p =>
    match runPrev (.args p) with
    | .err e => .err e
    | .noFuel => .noFuel
    | .ok (args, p1) =>
      if args.isEmpty then .err (.missingArguments p1.current.line)
      else
        let hasNewlines := p1.current.type = .newline
        match runPrev (.skipNl p1) with
        | .err e => .err e
        | .noFuel => .noFuel
        | .ok p2 =>
          if p2.current.type = .leftBrace then
            match runPrev (.block p2) with
            | .err e => .err e
            | .noFuel => .noFuel
            | .ok (subs, p3) =>
              if p3.current.type = .semicolon then
                match advanceP p3 with
                | .error e => .err e
                | .ok p4 => .ok (.mk args subs, p4)
              else .ok (.mk args subs, p3)
          else if hasNewlines then .ok (.mk args [], p2)
          else if p2.current.type = .semicolon then
            match advanceP p2 with
            | .error e => .err e
            | .ok p3 => .ok (.mk args [], p3)
          else if p2.current.type = .rightBrace ∨ p2.current.type = .eof then
            .ok (.mk args [], p2)
          else .err (.expectedTerminator p2.current.line p2.current.type)
  | .args p =>
    if p.current.type = .lineContinuation then
      match advanceP p with
      | .error e => .err e
      | .ok p2 => runPrev (.args p2)
    else if p.current.type = .argument then
      match advanceP p with
      | .error e => .err e
      | .ok p2 =>
        match runPrev (.args p2) with
        | .err e => .err e
        | .noFuel => .noFuel
        | .ok (args, p3) => .ok (p.current.value :: args, p3)
    else .ok ([], p)
  | .skipNl p =>
    if p.current.type = .newline then
      match advanceP p with
      | .error e => .err e
      | .ok p2 => runPrev (.skipNl p2)
    else .ok p
  | .block p =>
    if p.current.type ≠ .leftBrace then .err (.expectedLeftBrace p.current.line p.current.type)
    else
      match advanceP p with
      | .error e => .err e
      | .ok p1 =>
        match runPrev (.dirs true p1) with
        | .err e => .err e
        | .noFuel => .noFuel
        | .ok (subs, p2) =>
          if p2.current.type ≠ .rightBrace then
            .err (.expectedRightBrace p2.current.line p2.current.type)
          else
            match advanceP p2 with
            | .error e => .err e
            | .ok p3 => .ok (subs, p3)

/-- The fuel-recursive parsing driver: `fuel + 1` units of fuel run one
`runPStep` over the driver at `fuel` units; zero fuel is exhaustion.
(Written with `Nat.rec` so that concrete runs reduce in the kernel with the
previous level shared across the arms' recursive calls.) -/
def runP (fuel : Nat) : (c : PCall) -> PResult (POut c) :=
  Nat.rec (fun _ => .noFuel) (fun _ ih => runPStep ih) fuel

/-- `parseDirectives`: skip blank lines; stop at EOF, or at `\x7d` when
inside a block (`\x7d` at top level is the unmatched-brace error); otherwise
parse one directive and continue. -/
def parseDirectives (insideBlock : Bool) (p : PState) (fuel : Nat) :
    PResult (POut (.dirs insideBlock p)) :=
  runP fuel (.dirs insideBlock p)

/-- `parseDirective`: one-or-more arguments (zero is the missing-arguments
error), optional newlines, then either a block (with optional trailing
semicolon) or a plain terminator — a newline already seen, a semicolon
(consumed), or `\x7d`/EOF (left in place); anything else is the
unexpected-token error. -/
def parseDirective (p : PState) (fuel : Nat) : PResult (POut (.dir p)) :=
  runP fuel (.dir p)

/-- `parseArguments`: collect argument tokens, silently skipping
line-continuation tokens; stop at the first other token. -/
def parseArguments (p : PState) (fuel : Nat) : PResult (POut (.args p)) :=
  runP fuel (.args p)

/-- The newline-skipping loop inside `parseDirective` (peeking past blank
lines before a possible block). -/
def skipNewlinesP (p : PState) (fuel : Nat) : PResult (POut (.skipNl p)) :=
  runP fuel (.skipNl p)

/-- `parseBlock`: consume `\x7b`, parse the inner directive list, then
require and consume `\x7d` (its absence — the list stopped at EOF — is the
unmatched-brace-at-end-of-input error). -/
def parseBlock (p : PState) (fuel : Nat) : PResult (POut (.block p)) :=
  runP fuel (.block p)

theorem parseDirectives_zero (b : Bool) (p : PState) : parseDirectives b p 0 = .noFuel := rfl

theorem parseDirective_zero (p : PState) : parseDirective p 0 = .noFuel := rfl

theorem parseArguments_zero (p : PState) : parseArguments p 0 = .noFuel := rfl

theorem skipNewlinesP_zero (p : PState) : skipNewlinesP p 0 = .noFuel := rfl

theorem parseBlock_zero (p : PState) : parseBlock p 0 = .noFuel := rfl

/-- The body of `parseDirectives`. -/
theorem parseDirectives_succ (b : Bool) (p : PState) (fuel : Nat) :
    parseDirectives b p (fuel + 1) =
      if p.current.type = .newline then
        match advanceP p with
        | .error e => .err e
        | .ok p2 => parseDirectives b p2 fuel
      else if p.current.type = .eof then .ok ([], p)
      else if p.current.type = .rightBrace then
        if b then .ok ([], p)
        else .err (.unexpectedRightBrace p.current.line)
      else
        match parseDirective p fuel with
        | .err e => .err e
        | .noFuel => .noFuel
        | .ok (d, p2) =>
          match parseDirectives b p2 fuel with
          | .err e => .err e
          | .noFuel => .noFuel
          | .ok (ds, p3) => .ok (d :: ds, p3) := by rfl

/-- The body of `parseDirective`. -/
theorem parseDirective_succ (p : PState) (fuel : Nat) :
    parseDirective p (fuel + 1) =
      match parseArguments p fuel with
      | .err e => .err e
      | .noFuel => .noFuel
      | .ok (args, p1) =>
        if args.isEmpty then .err (.missingArguments p1.current.line)
        else
          let hasNewlines := p1.current.type = .newline
          match skipNewlinesP p1 fuel with
          | .err e => .err e
          | .noFuel => .noFuel
          | .ok p2 =>
            if p2.current.type = .leftBrace then
              match parseBlock p2 fuel with
              | .err e => .err e
              | .noFuel => .noFuel
              | .ok (subs, p3) =>
                if p3.current.type = .semicolon then
                  match advanceP p3 with
                  | .error e => .err e
                  | .ok p4 => .ok (.mk args subs, p4)
                else .ok (.mk args subs, p3)
            else if hasNewlines then .ok (.mk args [], p2)
            else if p2.current.type = .semicolon then
              match advanceP p2 with
              | .error e => .err e
              | .ok p3 => .ok (.mk args [], p3)
            else if p2.current.type = .rightBrace ∨ p2.current.type = .eof then
              .ok (.mk args [], p2)
            else .err (.expectedTerminator p2.current.line p2.current.type) := rfl

/-- The body of `parseArguments`. -/
theorem parseArguments_succ (p : PState) (fuel : Nat) :
    parseArguments p (fuel + 1) =
      if p.current.type = .lineContinuation then
        match advanceP p with
        | .error e => .err e
        | .ok p2 => parseArguments p2 fuel
      else if p.current.type = .argument then
        match advanceP p with
        | .error e => .err e
        | .ok p2 =>
          match parseArguments p2 fuel with
          | .err e => .err e
          | .noFuel => .noFuel
          | .ok (args, p3) => .ok (p.current.value :: args, p3)
      else .ok ([], p) := rfl

/-- The body of the newline-skip loop. -/
theorem skipNewlinesP_succ (p : PState) (fuel : Nat) :
    skipNewlinesP p (fuel + 1) =
      if p.current.type = .newline then
        match advanceP p with
        | .error e => .err e
        | .ok p2 => skipNewlinesP p2 fuel
      else .ok p := rfl

/-- The body of `parseBlock`. -/
theorem parseBlock_succ (p : PState) (fuel : Nat) :
    parseBlock p (fuel + 1) =
      if p.current.type ≠ .leftBrace then .err (.expectedLeftBrace p.current.line p.current.type)
      else
        match advanceP p with
        | .error e => .err e
        | .ok p1 =>
          match parseDirectives true p1 fuel with
          | .err e => .err e
          | .noFuel => .noFuel
          | .ok (subs, p2) =>
            if p2.current.type ≠ .rightBrace then
              .err (.expectedRightBrace p2.current.line p2.current.type)
            else
              match advanceP p2 with
              | .error e => .err e
              | .ok p3 => .ok (subs, p3) := rfl

/-- `Parser.Parse` with an explicit fuel: construct the lexer, pre-fetch
the first significant token (`NewParser`), then parse the top-level
directive list. -/
def ParseWith (input : List Char) (fuel : Nat) : PResult ConfigurationUnit :=
  match advanceTok (initLexer input) with
  | .error e => .err e
  | .ok (t, l) =>
    match parseDirectives false ⟨l, t⟩ fuel with
    | .err e => .err e
    | .noFuel => .noFuel
    | .ok (ds, _) => .ok ⟨ds⟩

/-- The `parse` entry point: fuel `4 * input.length + 8` is proved
sufficient below (`Parse_ne_noFuel`). -/
def Parse (input : List Char) : PResult ConfigurationUnit :=
  ParseWith input (4 * input.length + 8)

/-- `parse` on a Lean string. -/
def ParseString (s : String) : PResult ConfigurationUnit :=
  Parse s.data

/-! ## Fuel monotonicity

Once a run completes (successfully or with an error) under some fuel, any
larger fuel gives the identical result.  This lets concrete runs be
evaluated at a small fuel and lifted to the fuel `Parse` supplies. -/

theorem runP_zero (c : PCall) : runP 0 c = .noFuel := rfl

theorem runP_succ (fuel : Nat) (c : PCall) :
    runP (fuel + 1) c = runPStep (runP fuel) c := rfl

theorem runPStep_mono (R R' : (c : PCall) → PResult (POut c))
    (h : ∀ c, R c ≠ .noFuel → R' c = R c) :
    ∀ c, runPStep R c ≠ .noFuel → runPStep R' c = runPStep R c := by
  intro c hc
  cases c with
  | dirs b p =>
    by_cases h1 : p.current.type = .newline
    · simp only [runPStep, if_pos h1] at hc ⊢
      cases hadv : advanceP p with
      | error e => simp [hadv]
      | ok p2 =>
        simp only [hadv] at hc ⊢
        exact h _ hc
    · by_cases h2 : p.current.type = .eof
      · simp [runPStep, h1, h2]
      · by_cases h3 : p.current.type = .rightBrace
        · simp [runPStep, h1, h2, h3]
        · simp only [runPStep, if_neg h1, if_neg h2, if_neg h3] at hc ⊢
          cases hd : R (.dir p) with
          | err e => rw [h _ (by rw [hd]; exact nofun), hd]
          | noFuel => rw [hd] at hc; exact absurd rfl hc
          | ok v =>
            obtain ⟨d, p2⟩ := v
            rw [h _ (by rw [hd]; exact nofun)]
            simp only [hd] at hc ⊢
            cases hds : R (.dirs b p2) with
            | err e => rw [h _ (by rw [hds]; exact nofun), hds]
            | noFuel => rw [hds] at hc; exact absurd rfl hc
            | ok v2 => rw [h _ (by rw [hds]; exact nofun), hds]
  | dir p =>
    simp only [runPStep] at hc ⊢
    cases ha : R (.args p) with
    | err e => rw [h _ (by rw [ha]; exact nofun), ha]
    | noFuel => rw [ha] at hc; exact absurd rfl hc
    | ok v =>
      obtain ⟨args, p1⟩ := v
      rw [h _ (by rw [ha]; exact nofun)]
      simp only [ha] at hc ⊢
      by_cases he : args.isEmpty
      · simp [he]
      · simp only [if_neg he] at hc ⊢
        cases hs : R (.skipNl p1) with
        | err e => rw [h _ (by rw [hs]; exact nofun), hs]
        | noFuel => rw [hs] at hc; exact absurd rfl hc
        | ok p2 =>
          rw [h _ (by rw [hs]; exact nofun)]
          simp only [hs] at hc ⊢
          by_cases hb : p2.current.type = .leftBrace
          · simp only [if_pos hb] at hc ⊢
            cases hbl : R (.block p2) with
            | err e => rw [h _ (by rw [hbl]; exact nofun), hbl]
            | noFuel => rw [hbl] at hc; exact absurd rfl hc
            | ok v2 => rw [h _ (by rw [hbl]; exact nofun), hbl]
          · simp [if_neg hb]
  | args p =>
    by_cases h1 : p.current.type = .lineContinuation
    · simp only [runPStep, if_pos h1] at hc ⊢
      cases hadv : advanceP p with
      | error e => simp [hadv]
      | ok p2 =>
        simp only [hadv] at hc ⊢
        exact h _ hc
    · by_cases h2 : p.current.type = .argument
      · simp only [runPStep, if_neg h1, if_pos h2] at hc ⊢
        cases hadv : advanceP p with
        | error e => simp [hadv]
        | ok p2 =>
          simp only [hadv] at hc ⊢
          cases ha : R (.args p2) with
          | err e => rw [h _ (by rw [ha]; exact nofun), ha]
          | noFuel => rw [ha] at hc; exact absurd rfl hc
          | ok v => rw [h _ (by rw [ha]; exact nofun), ha]
      · simp [runPStep, h1, h2]
  | skipNl p =>
    by_cases h1 : p.current.type = .newline
    · simp only [runPStep, if_pos h1] at hc ⊢
      cases hadv : advanceP p with
      | error e => simp [hadv]
      | ok p2 =>
        simp only [hadv] at hc ⊢
        exact h _ hc
    · simp [runPStep, h1]
  | block p =>
    by_cases h1 : p.current.type = .leftBrace
    · simp only [runPStep, if_neg (by simp [h1] : ¬p.current.type ≠ .leftBrace)] at hc ⊢
      cases hadv : advanceP p with
      | error e => simp [hadv]
      | ok p1 =>
        simp only [hadv] at hc ⊢
        cases hds : R (.dirs true p1) with
        | err e => rw [h _ (by rw [hds]; exact nofun), hds]
        | noFuel => rw [hds] at hc; exact absurd rfl hc
        | ok v =>
          obtain ⟨subs, p2⟩ := v
          rw [h _ (by rw [hds]; exact nofun)]
          simp only [hds]
    · simp [runPStep, if_pos (by simp [h1] : p.current.type ≠ .leftBrace)]

theorem runP_mono : ∀ f f' : Nat, f ≤ f' → ∀ c : PCall,
    runP f c ≠ .noFuel → runP f' c = runP f c := by
  intro f
  induction f with
  | zero => intro f' _ c h; exact absurd rfl h
  | succ f ih =>
    intro f' hf c h
    obtain ⟨f'', rfl⟩ : ∃ f'', f' = f'' + 1 := ⟨f' - 1, by omega⟩
    exact runPStep_mono (runP f) (runP f'') (fun c hc => ih f'' (by omega) c hc) c h

theorem ParseWith_mono {input : List Char} {f f' : Nat} (hf : f ≤ f')
    (h : ParseWith input f ≠ .noFuel) : ParseWith input f' = ParseWith input f := by
  unfold ParseWith at h ⊢
  cases hadv : advanceTok (initLexer input) with
  | error e => rfl
  | ok v =>
    obtain ⟨t, l⟩ := v
    have hne : parseDirectives false ⟨l, t⟩ f ≠ .noFuel := by
      intro hnf
      simp [hadv, hnf] at h
    have hmono : parseDirectives false ⟨l, t⟩ f' = parseDirectives false ⟨l, t⟩ f :=
      runP_mono f f' hf (.dirs false ⟨l, t⟩) hne
    simp only [hadv, hmono]

/-- Evaluate `Parse` by running the parser at any sufficient small fuel. -/
theorem Parse_eval {input : List Char} {R : PResult ConfigurationUnit} (f : Nat)
    (h : ParseWith input f = R) (hR : R ≠ .noFuel) (hf : f ≤ 4 * input.length + 8) :
    Parse input = R := by
  unfold Parse
  rw [ParseWith_mono hf (by rw [h]; exact hR), h]

/-! ## The serializer contract (claim C7)

A second rendering, written from the specification's own words rather than
from the source, to compare against `render`. -/

/-- Spec §4.3: "an indentation of 4 spaces per nesting depth". -/
def specIndent (depth : Nat) : String :=
  String.mk (List.replicate (4 * depth) ' ')

/-- Spec §4.3: "each argument is wrapped in `<` `>`". -/
def wrapArg (a : String) : String := "<" ++ a ++ ">"

/-- Spec §4.3: "a single space separating consecutive arguments (no space
after the last)": the wrapped arguments interspersed with single spaces,
concatenated. -/
def specArgs (args : List String) : String :=
  (List.intersperse " " (args.map wrapArg)).foldr (· ++ ·) ""

mutual
/-- Spec §4.3, one directive: the indentation, the argument part, then —
only if it has subdirectives — " [", a newline, the children at depth + 1
and the closing "]" at the parent's indentation; the directive line ends
with a newline. -/
def specRenderDirective (d : Directive) (depth : Nat) : String :=
  match d with
  | .mk args subs =>
    specIndent depth ++ specArgs args ++
    (if subs = [] then "" else
      " [\n" ++ specRenderList subs (depth + 1) ++ specIndent depth ++ "]") ++ "\n"
/-- Spec §4.3, a directive sequence: each directive in order. -/
def specRenderList (ds : List Directive) (depth : Nat) : String :=
  match ds with
  | [] => ""
  | d :: rest => specRenderDirective d depth ++ specRenderList rest depth
end

/-- The rendering described by spec §4.3. -/
def specRender (cu : ConfigurationUnit) : String :=
  specRenderList cu.directives 0

theorem indentStr_eq_specIndent : ∀ n, indentStr n = specIndent n := by
  intro n
  induction n with
  | zero => rfl
  | succ n ih =>
    rw [indentStr, ih, specIndent, specIndent, Nat.mul_succ, List.replicate_add]
    apply String.ext
    simp [String.data_append, List.replicate]

theorem strApp_assoc (a b c : String) : a ++ b ++ c = a ++ (b ++ c) := by
  apply String.ext
  simp [String.data_append]

theorem printArgs_eq_specArgs : ∀ args, printArgs args = specArgs args := by
  intro args
  match args with
  | [] => rfl
  | [a] =>
    show "<" ++ a ++ ">" = ("<" ++ a ++ ">") ++ ""
    rw [String.append_empty]
  | a :: b :: rest =>
    have ih := printArgs_eq_specArgs (b :: rest)
    rw [printArgs, ih]
    · show ("<" ++ a ++ "> ") ++ specArgs (b :: rest) =
        ("<" ++ a ++ ">") ++ (" " ++ specArgs (b :: rest))
      have h1 : ("> " : String) = ">" ++ " " := rfl
      rw [h1, ← strApp_assoc, ← strApp_assoc]
    · simp

mutual
theorem printDirective_eq_spec : ∀ (d : Directive) (i : Nat),
    printDirective d i = specRenderDirective d i
  | .mk args subs, i => by
    rw [printDirective, specRenderDirective, indentStr_eq_specIndent,
      printArgs_eq_specArgs]
    congr 2
    cases subs with
    | nil => rfl
    | cons s ss =>
      rw [if_neg (by simp), if_neg (List.cons_ne_nil s ss),
        printDirectives_eq_spec (s :: ss) (i + 1)]
theorem printDirectives_eq_spec : ∀ (ds : List Directive) (i : Nat),
    printDirectives ds i = specRenderList ds i
  | [], i => by rw [printDirectives, specRenderList]
  | d :: rest, i => by
    rw [printDirectives, specRenderList, printDirective_eq_spec d i,
      printDirectives_eq_spec rest i]
end

/-- C7: for every `ConfigurationUnit`, `render` produces exactly the text
described by spec §4.3 — each directive indented by 4 spaces per nesting
depth, its arguments wrapped in angle brackets with single spaces between
consecutive arguments and none after the last, a " [", newline, children at
depth + 1 and a "]" at the parent's indentation exactly when subdirectives
exist, and a newline ending every directive line. -/
theorem render_meets_spec (cu : ConfigurationUnit) : render cu = specRender cu :=
  printDirectives_eq_spec cu.directives 0

end Confetti

namespace Confetti

/-! ## Claim C10: the empty quoted argument -/

/-- C10: a pair of double-quote characters not followed by a third double
quote is a complete quoted argument whose decoded value is the empty
string; in particular `parse "key \"\""` succeeds, yielding one directive
with arguments `["key", ""]`. -/
theorem claim_C10_emptyQuotedArgument :
    (∀ (l : Lexer) (rest : List Char), l.rem = '"' :: '"' :: rest →
      peekChar rest ≠ '"' →
      scanQuotedArgument l =
        .ok (⟨.argument, "", l.line, l.column⟩,
             { l with rem := rest, column := l.column + 2 })) ∧
    ParseString "key \"\"" = .ok ⟨[.mk ["key", ""] []]⟩ := by
  constructor
  · intro l rest h hq
    obtain ⟨rem, line, col, st⟩ := l
    simp only at h
    subst h
    cases rest with
    | nil => rfl
    | cons c rest2 =>
      have hc : c ≠ '"' := by simpa [peekChar] using hq
      simp [scanQuotedArgument, hc]
  · exact Parse_eval 8 (by decide) (by decide) (by decide)

theorem claim_C10_witness :
    scanQuotedArgument ⟨['"', '"', 'x'], 1, 5, false⟩ =
      .ok (⟨.argument, "", 1, 5⟩, ⟨['x'], 1, 7, false⟩) :=
  claim_C10_emptyQuotedArgument.1 ⟨['"', '"', 'x'], 1, 5, false⟩ ['x'] rfl (by decide)

end Confetti

namespace Confetti

/-! ## Claim C2: line continuations in quoted arguments -/

/-- C2 counterexample: the claim asserts that a backslash immediately
followed by a line terminator is a line continuation inside *both* quoted
forms, so `parse "a \"\"\"x\\\ny\"\"\""` would succeed with argument value
"xy"; instead the triple-quoted scanner treats it as an invalid escape and
the parse fails. -/
theorem claim_C2_counterexample :
    ParseString "a \"\"\"x\\\ny\"\"\"" = .err (.invalidEscapeTriple 1) :=
  Parse_eval 6 (by decide) (by decide) (by decide)

/-- C2 (amended): inside a single-quoted argument, a backslash immediately
followed by a line terminator is a line continuation — the terminator is
consumed (both characters when it is a CR immediately followed by LF, just
the CR when the CR stands alone), nothing is inserted into the value, and
scanning continues on the next physical line without error; inside a
triple-quoted argument the same sequence is an invalid-escape error
instead. -/
theorem claim_C2_lineContinuation :
    (∀ (rest : List Char) (line col : Nat) (buf : String) (t : Char),
      IsLineTerminator t = true → t ≠ '\r' →
      singleQuotedAux ('\\' :: t :: rest) line col buf =
        singleQuotedAux rest (line + 1) 1 buf) ∧
    (∀ (rest : List Char) (line col : Nat) (buf : String),
      singleQuotedAux ('\\' :: '\r' :: '\n' :: rest) line col buf =
        singleQuotedAux rest (line + 1) 1 buf) ∧
    (∀ (rest : List Char) (line col : Nat) (buf : String),
      (∀ rest3, rest ≠ '\n' :: rest3) →
      singleQuotedAux ('\\' :: '\r' :: rest) line col buf =
        singleQuotedAux rest (line + 1) 1 buf) ∧
    (∀ (rest : List Char) (line col : Nat) (buf : String) (t : Char),
      IsLineTerminator t = true →
      tripleQuotedAux ('\\' :: t :: rest) line col buf =
        .error (.invalidEscapeTriple line)) := by
  refine ⟨?_, ?_, ?_, ?_⟩
  · intro rest line col buf t ht htr
    cases rest with
    | nil => simp [singleQuotedAux, peekChar, ht, htr]
    | cons c2 rest2 => simp [singleQuotedAux, peekChar, ht, htr]
  · intro rest line col buf
    have hlt : IsLineTerminator '\r' = true := by decide
    simp [singleQuotedAux, peekChar, hlt]
  · intro rest line col buf hne
    have hlt : IsLineTerminator '\r' = true := by decide
    rcases rest with _ | ⟨c2, rest2⟩
    · rw [singleQuotedAux.eq_4 _ _ _ _ _ _ (by intro r3 hcr hn; exact absurd hn nofun)]
      simp [peekChar, hlt]
    · have hc2 : c2 ≠ '\n' := fun he => hne rest2 (by rw [he])
      rw [singleQuotedAux.eq_4 _ _ _ _ _ _
        (by intro r3 hcr hn; simp only [List.cons.injEq] at hn; exact hc2 hn.1)]
      simp [peekChar, hlt]
  · intro rest line col buf t ht
    simp [tripleQuotedAux, peekChar, ht]

/-- C2 witness: the single-quoted continuation at concrete states (lone LF,
CRLF, and a lone CR not followed by LF), and the triple-quoted error at a
concrete state. -/
theorem claim_C2_witness :
    singleQuotedAux ['\\', '\n', 'y', '"'] 1 3 "x" =
      singleQuotedAux ['y', '"'] 2 1 "x" ∧
    singleQuotedAux ['\\', '\r', '\n', 'y', '"'] 1 3 "x" =
      singleQuotedAux ['y', '"'] 2 1 "x" ∧
    singleQuotedAux ['\\', '\r', 'y', '"'] 1 3 "x" =
      singleQuotedAux ['y', '"'] 2 1 "x" ∧
    tripleQuotedAux ['\\', '\n', 'y'] 1 3 "x" = .error (.invalidEscapeTriple 1) :=
  ⟨claim_C2_lineContinuation.1 ['y', '"'] 1 3 "x" '\n' (by decide) (by decide),
   claim_C2_lineContinuation.2.1 ['y', '"'] 1 3 "x",
   claim_C2_lineContinuation.2.2.1 ['y', '"'] 1 3 "x" (by intro r3 h; simp at h),
   claim_C2_lineContinuation.2.2.2 ['y'] 1 3 "x" '\n' (by decide)⟩

end Confetti

namespace Confetti

/-! ## Claim C6: Control-Z handling -/

/-- C6 counterexample: the claim asserts Control-Z is treated as
end-of-input whenever it is the very last character of the buffer, so
`parse "#a\x1A"` would succeed with zero directives; instead the comment
scanner reports its Control-Z — although it is the very last character — as
a forbidden character. -/
theorem claim_C6_counterexample :
    ParseString "#a\x1A" = .err (.forbiddenInComment 1) :=
  Parse_eval 2 (by decide) (by decide) (by decide)

/-- C6 (amended): Control-Z is treated as end-of-input iff it stands where
a token may begin (whitespace skipped) and is the very last character of
the buffer; at a token start with anything following it is a
forbidden-character error. Inside a comment, a single-quoted or a
triple-quoted argument, a Control-Z met by the scanner itself is a
forbidden-character error even when it is the very last character of the
buffer; when the Control-Z immediately follows an escaping backslash in a
quoted argument it is reported as an invalid-escape error instead (also at
the very end of the buffer). -/
theorem claim_C6_controlZ :
    (∀ (line col : Nat),
      NextToken ⟨['\x1A'], line, col, false⟩ =
        .ok (⟨.eof, "", line, col⟩, ⟨['\x1A'], line, col, false⟩)) ∧
    (∀ (line col : Nat) (c : Char) (rest : List Char),
      NextToken ⟨'\x1A' :: c :: rest, line, col, false⟩ =
        .error (.forbiddenChar line col)) ∧
    (∀ (line : Nat) (cs : List Char) (col : Nat) (acc : String),
      scanCommentAux line ('\x1A' :: cs) col acc = .error (.forbiddenInComment line)) ∧
    (∀ (cs : List Char) (line col : Nat) (buf : String),
      singleQuotedAux ('\x1A' :: cs) line col buf = .error (.forbiddenInString line)) ∧
    (∀ (cs : List Char) (line col : Nat) (buf : String),
      tripleQuotedAux ('\x1A' :: cs) line col buf = .error (.forbiddenInString line)) ∧
    (∀ (cs : List Char) (line col : Nat) (buf : String),
      singleQuotedAux ('\\' :: '\x1A' :: cs) line col buf =
        .error (.invalidEscapeQuoted line)) ∧
    (∀ (cs : List Char) (line col : Nat) (buf : String),
      tripleQuotedAux ('\\' :: '\x1A' :: cs) line col buf =
        .error (.invalidEscapeTriple line)) ∧
    ParseString "\"a\\\x1A" = .err (.invalidEscapeQuoted 1) := by
  have hfb : IsForbidden '\x1A' = true := by decide
  have hlt : IsLineTerminator '\x1A' = false := by decide
  have hq : ('\x1A' : Char) ≠ '"' := by decide
  have hb : ('\x1A' : Char) ≠ '\\' := by decide
  refine ⟨?_, ?_, ?_, ?_, ?_, ?_, ?_, ?_⟩
  · intro line col
    rfl
  · intro line col c rest
    rfl
  · intro line cs col acc
    simp [scanCommentAux, hfb, hlt]
  · intro cs line col buf
    unfold singleQuotedAux
    simp [hq, hb, hfb, hlt]
  · intro cs line col buf
    cases cs with
    | nil => simp [tripleQuotedAux, hfb, hq, hb]
    | cons c2 cs2 => simp [tripleQuotedAux, hfb, hq, hb]
  · intro cs line col buf
    cases cs with
    | nil => simp [singleQuotedAux, peekChar, hfb, hlt]
    | cons c2 cs2 => simp [singleQuotedAux, peekChar, hfb, hlt]
  · intro cs line col buf
    cases cs with
    | nil => simp [tripleQuotedAux, peekChar, hfb, hlt]
    | cons c2 cs2 => simp [tripleQuotedAux, peekChar, hfb, hlt]
  · exact Parse_eval 4 (by decide) (by decide) (by decide)

/-- C6 witness: the amended behavior at concrete states. -/
theorem claim_C6_witness :
    NextToken ⟨['\x1A'], 1, 1, false⟩ = .ok (⟨.eof, "", 1, 1⟩, ⟨['\x1A'], 1, 1, false⟩) ∧
    NextToken ⟨['\x1A', 'a'], 1, 1, false⟩ = .error (.forbiddenChar 1 1) ∧
    scanCommentAux 1 ['\x1A'] 2 "#" = .error (.forbiddenInComment 1) ∧
    singleQuotedAux ['\x1A'] 1 2 "" = .error (.forbiddenInString 1) ∧
    tripleQuotedAux ['\x1A'] 1 4 "" = .error (.forbiddenInString 1) ∧
    singleQuotedAux ['\\', '\x1A'] 1 3 "a" = .error (.invalidEscapeQuoted 1) ∧
    tripleQuotedAux ['\\', '\x1A'] 1 4 "" = .error (.invalidEscapeTriple 1) :=
  ⟨claim_C6_controlZ.1 1 1, claim_C6_controlZ.2.1 1 1 'a' [],
   claim_C6_controlZ.2.2.1 1 ['\x1A'].tail 2 "#", claim_C6_controlZ.2.2.2.1 [] 1 2 "",
   claim_C6_controlZ.2.2.2.2.1 [] 1 4 "",
   claim_C6_controlZ.2.2.2.2.2.1 [] 1 3 "a",
   claim_C6_controlZ.2.2.2.2.2.2.1 [] 1 4 ""⟩

/-! ## Claim C8: the parse/render round trip -/

/-- C8 counterexample: `parse "a b"` succeeds and its rendering
`"<a> <b>\n"` parses successfully, but re-parsing wraps each argument in a
further pair of angle brackets, so
`render(parse(render(parse "a b")))` is `"<<a>> <<b>>\n"`, not
`"<a> <b>\n"` — the round trip is not idempotent even though both guards of
the claim hold. -/
theorem claim_C8_counterexample :
    ParseString "a b" = .ok ⟨[.mk ["a", "b"] []]⟩ ∧
    ParseString (render ⟨[.mk ["a", "b"] []]⟩) = .ok ⟨[.mk ["<a>", "<b>"] []]⟩ ∧
    render ⟨[.mk ["<a>", "<b>"] []]⟩ ≠ render ⟨[.mk ["a", "b"] []]⟩ :=
  ⟨Parse_eval 6 (by decide) (by decide) (by decide),
   Parse_eval 8 (by decide) (by decide) (by decide),
   by decide⟩

end Confetti

namespace Confetti

/-! ## Lexer progress: every token-producing path consumes input -/

theorem skipWS_le : ∀ (cs : List Char) (col : Nat), (skipWS cs col).1.length ≤ cs.length := by
  intro cs
  induction cs with
  | nil => intro col; simp [skipWS]
  | cons c rest ih =>
    intro col
    rw [skipWS]
    split
    · exact le_trans (ih (col + 1)) (by simp)
    · simp

theorem skipBom_le (cs : List Char) : (skipBom cs).length ≤ cs.length := by
  cases cs with
  | nil => simp [skipBom]
  | cons c rest =>
    rw [skipBom]
    split <;> simp

theorem scanCommentAux_le : ∀ (n : Nat) (cs : List Char), cs.length ≤ n →
    ∀ (line col : Nat) (acc v : String) (rem : List Char) (col' : Nat),
    scanCommentAux line cs col acc = .ok (v, rem, col') → rem.length ≤ cs.length := by
  intro n
  induction n with
  | zero =>
    intro cs hcs line col acc v rem col' h
    obtain rfl := List.length_eq_zero.mp (Nat.le_zero.mp hcs)
    rw [scanCommentAux] at h
    simp only [Except.ok.injEq, Prod.mk.injEq] at h
    simp [← h.2.1]
  | succ n ih =>
    intro cs hcs line col acc v rem col' h
    cases cs with
    | nil =>
      rw [scanCommentAux] at h
      simp only [Except.ok.injEq, Prod.mk.injEq] at h
      simp [← h.2.1]
    | cons c rest =>
      rw [scanCommentAux] at h
      split at h
      · simp only [Except.ok.injEq, Prod.mk.injEq] at h
        simp [← h.2.1]
      · split at h
        · simp at h
        · have := ih rest (by simp at hcs; omega) line (col + 1) (acc.push c) v rem col' h
          simp
          omega

end Confetti

namespace Confetti

theorem singleQuotedAux_le : ∀ (n : Nat) (cs : List Char), cs.length ≤ n →
    ∀ (line col : Nat) (buf v : String) (rem : List Char) (line' col' : Nat),
    singleQuotedAux cs line col buf = .ok (v, rem, line', col') → rem.length ≤ cs.length := by
  intro n
  induction n with
  | zero =>
    intro cs hcs line col buf v rem line' col' h
    obtain rfl := List.length_eq_zero.mp (Nat.le_zero.mp hcs)
    rw [singleQuotedAux.eq_1] at h
    simp at h
  | succ n ih =>
    intro cs hcs line col buf v rem line' col' h
    cases cs with
    | nil => rw [singleQuotedAux.eq_1] at h; simp at h
    | cons c rest =>
      simp only [List.length_cons] at hcs
      rcases rest with _ | ⟨c2, rest2⟩
      · rw [singleQuotedAux.eq_2] at h
        simp only [peekChar] at h
        repeat' split at h
        all_goals first
          | (simp only [Except.ok.injEq, Prod.mk.injEq] at h; obtain ⟨-, h2, -, -⟩ := h; subst h2; simp only [List.length_cons]; omega)
          | (refine le_trans (ih _ ?_ _ _ _ _ _ _ _ h) ?_ <;> simp_all <;> omega)
          | simp at h
      · by_cases h35 : c2 = '\r' ∧ ∃ rest3, rest2 = '\n' :: rest3
        · obtain ⟨rfl, rest3, rfl⟩ := h35
          rw [singleQuotedAux.eq_3] at h
          simp only [peekChar] at h
          repeat' split at h
          all_goals first
            | (simp only [Except.ok.injEq, Prod.mk.injEq] at h; obtain ⟨-, h2, -, -⟩ := h; subst h2; simp only [List.length_cons]; omega)
            | (refine le_trans (ih _ ?_ _ _ _ _ _ _ _ h) ?_ <;> simp_all <;> omega)
            | simp at h
        · rw [singleQuotedAux.eq_4 _ _ _ _ _ _
            (by intro rest3 hr hn; exact h35 ⟨hr, rest3, hn⟩)] at h
          simp only [peekChar] at h
          repeat' split at h
          all_goals first
            | (simp only [Except.ok.injEq, Prod.mk.injEq] at h; obtain ⟨-, h2, -, -⟩ := h; subst h2; simp only [List.length_cons]; omega)
            | (refine le_trans (ih _ ?_ _ _ _ _ _ _ _ h) ?_ <;> simp_all <;> omega)
            | simp at h

theorem tripleQuotedAux_le : ∀ (n : Nat) (cs : List Char), cs.length ≤ n →
    ∀ (line col : Nat) (buf v : String) (rem : List Char) (line' col' : Nat),
    tripleQuotedAux cs line col buf = .ok (v, rem, line', col') → rem.length ≤ cs.length := by
  intro n
  induction n with
  | zero =>
    intro cs hcs line col buf v rem line' col' h
    obtain rfl := List.length_eq_zero.mp (Nat.le_zero.mp hcs)
    rw [tripleQuotedAux.eq_2] at h
    simp at h
  | succ n ih =>
    intro cs hcs line col buf v rem line' col' h
    cases cs with
    | nil => rw [tripleQuotedAux.eq_2] at h; simp at h
    | cons c rest =>
      simp only [List.length_cons] at hcs
      by_cases hcl : c = '"' ∧ ∃ rest1, rest = '"' :: '"' :: rest1
      · obtain ⟨rfl, rest1, rfl⟩ := hcl
        rw [tripleQuotedAux.eq_1] at h
        simp only [Except.ok.injEq, Prod.mk.injEq] at h
        obtain ⟨-, h2, -, -⟩ := h
        subst h2
        simp only [List.length_cons]
        omega
      · rcases rest with _ | ⟨c2, rest2⟩
        · rw [tripleQuotedAux.eq_3 _ _ _ _
            (by intro r1 hc hn; exact absurd hn (by simp))] at h
          simp only [peekChar] at h
          repeat' split at h
          all_goals first
            | (simp only [Except.ok.injEq, Prod.mk.injEq] at h; obtain ⟨-, h2, -, -⟩ := h; subst h2; simp only [List.length_cons]; omega)
            | (refine le_trans (ih _ ?_ _ _ _ _ _ _ _ h) ?_ <;> simp_all <;> omega)
            | simp at h
        · rw [tripleQuotedAux.eq_4 _ _ _ _ _ _
            (by intro r1 hc hn; exact hcl ⟨hc, by simp only [List.cons.injEq] at hn; exact ⟨r1, by simp [hn.1, hn.2]⟩⟩)] at h
          simp only [peekChar] at h
          repeat' split at h
          all_goals first
            | (simp only [Except.ok.injEq, Prod.mk.injEq] at h; obtain ⟨-, h2, -, -⟩ := h; subst h2; simp only [List.length_cons]; omega)
            | (refine le_trans (ih _ ?_ _ _ _ _ _ _ _ h) ?_ <;> simp_all <;> omega)
            | simp at h

theorem scanSimpleAux_tok_le : ∀ (n : Nat) (cs : List Char), cs.length ≤ n →
    ∀ (line col : Nat) (buf v : String) (rem : List Char) (col' : Nat),
    scanSimpleAux line cs col buf = .tok v rem col' → rem.length ≤ cs.length := by
  intro n
  induction n with
  | zero =>
    intro cs hcs line col buf v rem col' h
    obtain rfl := List.length_eq_zero.mp (Nat.le_zero.mp hcs)
    rw [scanSimpleAux.eq_1] at h
    simp only [SimpleScan.tok.injEq] at h
    obtain ⟨-, h2, -⟩ := h
    subst h2
    simp
  | succ n ih =>
    intro cs hcs line col buf v rem col' h
    cases cs with
    | nil =>
      rw [scanSimpleAux.eq_1] at h
      simp only [SimpleScan.tok.injEq] at h
      obtain ⟨-, h2, -⟩ := h
      subst h2
      simp
    | cons c rest =>
      simp only [List.length_cons] at hcs
      rcases rest with _ | ⟨c2, rest2⟩
      · rw [scanSimpleAux.eq_2] at h
        simp only [peekChar] at h
        repeat' split at h
        all_goals first
          | (simp only [SimpleScan.tok.injEq] at h; obtain ⟨-, h2, -⟩ := h; subst h2; simp only [List.length_cons]; omega)
          | (refine le_trans (ih _ ?_ _ _ _ _ _ _ h) ?_ <;> simp_all <;> omega)
          | simp at h
      · by_cases h35 : c2 = '\r' ∧ ∃ rest3, rest2 = '\n' :: rest3
        · obtain ⟨rfl, rest3, rfl⟩ := h35
          rw [scanSimpleAux.eq_3] at h
          simp only [peekChar] at h
          repeat' split at h
          all_goals first
            | (simp only [SimpleScan.tok.injEq] at h; obtain ⟨-, h2, -⟩ := h; subst h2; simp only [List.length_cons]; omega)
            | (refine le_trans (ih _ ?_ _ _ _ _ _ _ h) ?_ <;> simp_all <;> omega)
            | simp at h
        · rw [scanSimpleAux.eq_4 _ _ _ _ _ _
            (by intro rest3 hr hn; exact h35 ⟨hr, rest3, hn⟩)] at h
          simp only [peekChar] at h
          repeat' split at h
          all_goals first
            | (simp only [SimpleScan.tok.injEq] at h; obtain ⟨-, h2, -⟩ := h; subst h2; simp only [List.length_cons]; omega)
            | (refine le_trans (ih _ ?_ _ _ _ _ _ _ h) ?_ <;> simp_all <;> omega)
            | simp at h

theorem scanSimpleAux_cont_lt : ∀ (n : Nat) (cs : List Char), cs.length ≤ n →
    ∀ (line col : Nat) (buf : String) (rem : List Char) (line' col' : Nat),
    scanSimpleAux line cs col buf = .cont rem line' col' → rem.length < cs.length := by
  intro n
  induction n with
  | zero =>
    intro cs hcs line col buf rem line' col' h
    obtain rfl := List.length_eq_zero.mp (Nat.le_zero.mp hcs)
    rw [scanSimpleAux.eq_1] at h
    simp at h
  | succ n ih =>
    intro cs hcs line col buf rem line' col' h
    cases cs with
    | nil => rw [scanSimpleAux.eq_1] at h; simp at h
    | cons c rest =>
      simp only [List.length_cons] at hcs
      rcases rest with _ | ⟨c2, rest2⟩
      · rw [scanSimpleAux.eq_2] at h
        simp only [peekChar] at h
        repeat' split at h
        all_goals first
          | (simp only [SimpleScan.cont.injEq] at h; obtain ⟨h2, -, -⟩ := h; subst h2; refine lt_of_le_of_lt (skipWS_le _ 1) ?_; simp only [List.length_cons]; omega)
          | (refine lt_of_lt_of_le (ih _ ?_ _ _ _ _ _ _ h) ?_ <;> simp_all <;> omega)
          | simp at h
      · by_cases h35 : c2 = '\r' ∧ ∃ rest3, rest2 = '\n' :: rest3
        · obtain ⟨rfl, rest3, rfl⟩ := h35
          rw [scanSimpleAux.eq_3] at h
          simp only [peekChar] at h
          repeat' split at h
          all_goals first
            | (simp only [SimpleScan.cont.injEq] at h; obtain ⟨h2, -, -⟩ := h; subst h2; refine lt_of_le_of_lt (skipWS_le _ 1) ?_; simp only [List.length_cons]; omega)
            | (refine lt_of_lt_of_le (ih _ ?_ _ _ _ _ _ _ h) ?_ <;> simp_all <;> omega)
            | simp at h
        · rw [scanSimpleAux.eq_4 _ _ _ _ _ _
            (by intro rest3 hr hn; exact h35 ⟨hr, rest3, hn⟩)] at h
          simp only [peekChar] at h
          repeat' split at h
          all_goals first
            | (simp only [SimpleScan.cont.injEq] at h; obtain ⟨h2, -, -⟩ := h; subst h2; refine lt_of_le_of_lt (skipWS_le _ 1) ?_; simp only [List.length_cons]; omega)
            | (refine lt_of_lt_of_le (ih _ ?_ _ _ _ _ _ _ h) ?_ <;> simp_all <;> omega)
            | simp at h

end Confetti

namespace Confetti

theorem scanSimpleAux_tok_lt (line : Nat) (c : Char) (rest : List Char) (col : Nat)
    (buf v : String) (rem : List Char) (col' : Nat)
    (hc : IsArgumentChar c = true)
    (h : scanSimpleAux line (c :: rest) col buf = .tok v rem col') :
    rem.length < (c :: rest).length := by
  rcases rest with _ | ⟨c2, rest2⟩
  · rw [scanSimpleAux.eq_2] at h
    simp only [peekChar] at h
    repeat' split at h
    all_goals first
      | (refine lt_of_le_of_lt (scanSimpleAux_tok_le _ _ le_rfl _ _ _ _ _ _ h) ?_
         simp only [List.length_cons]
         omega)
      | simp_all
  · by_cases h35 : c2 = '\r' ∧ ∃ rest3, rest2 = '\n' :: rest3
    · obtain ⟨rfl, rest3, rfl⟩ := h35
      rw [scanSimpleAux.eq_3] at h
      simp only [peekChar] at h
      repeat' split at h
      all_goals first
        | (refine lt_of_le_of_lt (scanSimpleAux_tok_le _ _ le_rfl _ _ _ _ _ _ h) ?_
           simp only [List.length_cons]
           omega)
        | simp_all
    · rw [scanSimpleAux.eq_4 _ _ _ _ _ _
        (by intro rest3 hr hn; exact h35 ⟨hr, rest3, hn⟩)] at h
      simp only [peekChar] at h
      repeat' split at h
      all_goals first
        | (refine lt_of_le_of_lt (scanSimpleAux_tok_le _ _ le_rfl _ _ _ _ _ _ h) ?_
           simp only [List.length_cons]
           omega)
        | simp_all

theorem scanSimpleArgument_lt (l : Lexer) (c : Char) (rest : List Char) (t : Token) (l2 : Lexer)
    (hrem : l.rem = c :: rest) (hc : IsArgumentChar c = true)
    (h : scanSimpleArgument l = .ok (t, l2)) : l2.rem.length < l.rem.length := by
  obtain ⟨rem0, line, col, st⟩ := l
  simp only at hrem
  subst hrem
  unfold scanSimpleArgument at h
  cases haux : scanSimpleAux line (c :: rest) col "" with
  | fail e => rw [haux] at h; simp at h
  | tok v rem' col' =>
    rw [haux] at h
    simp only [Except.ok.injEq, Prod.mk.injEq] at h
    obtain ⟨-, h2⟩ := h
    rw [← h2]
    exact scanSimpleAux_tok_lt line c rest col "" v rem' col' hc haux
  | cont rem' line' col' =>
    rw [haux] at h
    simp only [Except.ok.injEq, Prod.mk.injEq] at h
    obtain ⟨-, h2⟩ := h
    rw [← h2]
    exact scanSimpleAux_cont_lt _ _ le_rfl _ _ _ _ _ _ haux

theorem scanQuotedArgument_lt (l : Lexer) (rest0 : List Char) (t : Token) (l2 : Lexer)
    (hrem : l.rem = '"' :: rest0)
    (h : scanQuotedArgument l = .ok (t, l2)) : l2.rem.length < l.rem.length := by
  obtain ⟨rem0, line, col, st⟩ := l
  simp only at hrem
  subst hrem
  rcases rest0 with _ | ⟨c1, rest1⟩
  · simp [scanQuotedArgument, singleQuotedAux] at h
  · by_cases hq1 : c1 = '"'
    · subst hq1
      rcases rest1 with _ | ⟨c2, rest2⟩
      · simp [scanQuotedArgument] at h
        obtain ⟨-, h2⟩ := h
        rw [← h2]
        simp
      · by_cases hq2 : c2 = '"'
        · subst hq2
          cases haux : tripleQuotedAux rest2 line (col + 3) "" with
          | error e => simp [scanQuotedArgument, haux] at h
          | ok v4 =>
            obtain ⟨v, rem', line', col'⟩ := v4
            simp [scanQuotedArgument, haux] at h
            obtain ⟨-, h2⟩ := h
            rw [← h2]
            have := tripleQuotedAux_le _ _ le_rfl _ _ _ _ _ _ _ haux
            simp only [List.length_cons]
            omega
        · simp [scanQuotedArgument, hq2] at h
          obtain ⟨-, h2⟩ := h
          rw [← h2]
          simp only [List.length_cons]
          omega
    · cases haux : singleQuotedAux (c1 :: rest1) line (col + 1) "" with
      | error e => simp [scanQuotedArgument, hq1, haux] at h
      | ok v4 =>
        obtain ⟨v, rem', line', col'⟩ := v4
        simp [scanQuotedArgument, hq1, haux] at h
        obtain ⟨-, h2⟩ := h
        rw [← h2]
        have := singleQuotedAux_le _ _ le_rfl _ _ _ _ _ _ _ haux
        simp only [List.length_cons] at this ⊢
        omega

/-! ## Termination (claim C9)

Every successful `NextToken` call leaves at most as much input as it found,
and strictly less unless it produced the EOF token; the parser's measure
`pMeasure` then bounds the fuel any parse needs. -/

theorem scanNewline_lt (l : Lexer) (c : Char) (rest : List Char)
    (hrem : l.rem = c :: rest) :
    (scanNewline l).2.rem.length < l.rem.length := by
  obtain ⟨rem0, line, col, st⟩ := l
  simp only at hrem
  subst hrem
  rcases rest with _ | ⟨c2, rest2⟩
  · by_cases hc : c = '\r'
    · subst hc; simp [scanNewline]
    · simp [scanNewline, hc]
  · by_cases hc : c = '\r'
    · subst hc
      by_cases hc2 : c2 = '\n'
      · subst hc2; simp [scanNewline]; omega
      · simp [scanNewline, hc2]
    · simp [scanNewline, hc]

theorem scanComment_lt (l : Lexer) (c : Char) (rest : List Char) (t : Token) (l2 : Lexer)
    (hrem : l.rem = c :: rest)
    (h : scanComment l = .ok (t, l2)) : l2.rem.length < l.rem.length := by
  obtain ⟨rem0, line, col, st⟩ := l
  simp only at hrem
  subst hrem
  cases haux : scanCommentAux line rest (col + 1) "#" with
  | error e => simp [scanComment, haux] at h
  | ok v3 =>
    obtain ⟨v, rem', col'⟩ := v3
    simp [scanComment, haux] at h
    obtain ⟨-, h2⟩ := h
    rw [← h2]
    have := scanCommentAux_le rest.length rest le_rfl line (col + 1) "#" v rem' col' haux
    simp only [List.length_cons]
    omega

theorem nextTokenAt_progress (l : Lexer) (t : Token) (l2 : Lexer)
    (h : nextTokenAt l = .ok (t, l2)) :
    l2.rem.length ≤ l.rem.length ∧ (t.type ≠ .eof → l2.rem.length < l.rem.length) := by
  obtain ⟨rem1, line, col1, st⟩ := l
  rcases rem1 with _ | ⟨c, crest⟩
  · simp [nextTokenAt] at h
    obtain ⟨h1, h2⟩ := h
    subst h1; subst h2
    exact ⟨le_rfl, fun hne => absurd rfl hne⟩
  · by_cases hz : c = '\x1A'
    · subst hz
      rcases crest with _ | ⟨c2, crest2⟩
      · simp [nextTokenAt] at h
        obtain ⟨h1, h2⟩ := h
        subst h1; subst h2
        exact ⟨le_rfl, fun hne => absurd rfl hne⟩
      · simp [nextTokenAt] at h
    · by_cases hf : IsForbidden c = true
      · simp [nextTokenAt, hz, hf] at h
      · by_cases hlt : IsLineTerminator c = true
        · cases hsn : scanNewline ⟨c :: crest, line, col1, st⟩ with
          | mk tk lx2 =>
            simp [nextTokenAt, hz, hf, hlt, hsn] at h
            obtain ⟨h1, h2⟩ := h
            subst h1; subst h2
            have := scanNewline_lt ⟨c :: crest, line, col1, st⟩ c crest rfl
            rw [hsn] at this
            exact ⟨le_of_lt this, fun _ => this⟩
        · by_cases hsh : c = '#'
          · subst hsh
            simp only [nextTokenAt] at h
            simp [hz, hf, hlt] at h
            have := scanComment_lt ⟨'#' :: crest, line, col1, st⟩ '#' crest t l2 rfl h
            exact ⟨le_of_lt this, fun _ => this⟩
          · by_cases hsemi : c = ';'
            · subst hsemi
              simp [nextTokenAt, hz, hf, hlt] at h
              obtain ⟨h1, h2⟩ := h
              subst h1; subst h2
              refine ⟨by simp, fun _ => by simp⟩
            · by_cases hlb : c = '\x7b'
              · subst hlb
                simp [nextTokenAt, hz, hf, hlt] at h
                obtain ⟨h1, h2⟩ := h
                subst h1; subst h2
                refine ⟨by simp, fun _ => by simp⟩
              · by_cases hrb : c = '\x7d'
                · subst hrb
                  simp [nextTokenAt, hz, hf, hlt] at h
                  obtain ⟨h1, h2⟩ := h
                  subst h1; subst h2
                  refine ⟨by simp, fun _ => by simp⟩
                · by_cases hq : c = '"'
                  · subst hq
                    simp [nextTokenAt, hz, hf, hlt] at h
                    have := scanQuotedArgument_lt ⟨'"' :: crest, line, col1, st⟩ crest t l2 rfl h
                    exact ⟨le_of_lt this, fun _ => this⟩
                  · by_cases hac : IsArgumentChar c = true
                    · simp [nextTokenAt, hz, hf, hlt, hsh, hsemi, hlb, hrb, hq, hac] at h
                      have := scanSimpleArgument_lt ⟨c :: crest, line, col1, st⟩ c crest t l2 rfl hac h
                      exact ⟨le_of_lt this, fun _ => this⟩
                    · simp [nextTokenAt, hz, hf, hlt, hsh, hsemi, hlb, hrb, hq, hac] at h

theorem nextToken_progress (l0 : Lexer) (t : Token) (l2 : Lexer)
    (h : NextToken l0 = .ok (t, l2)) :
    l2.rem.length ≤ l0.rem.length ∧ (t.type ≠ .eof → l2.rem.length < l0.rem.length) := by
  obtain ⟨rem0, line, col, st⟩ := l0
  cases st with
  | false =>
    cases hsw : skipWS rem0 col with
    | mk rem1 col1 =>
      have hlen : rem1.length ≤ rem0.length := by
        have hle := skipWS_le rem0 col
        rw [hsw] at hle
        exact hle
      have h' : nextTokenAt ⟨rem1, line, col1, false⟩ = .ok (t, l2) := by
        simpa [NextToken, hsw] using h
      obtain ⟨h1, h2⟩ := nextTokenAt_progress _ _ _ h'
      exact ⟨le_trans h1 hlen, fun hne => lt_of_lt_of_le (h2 hne) hlen⟩
  | true =>
    cases hsw : skipWS (skipBom rem0) col with
    | mk rem1 col1 =>
      have hlen : rem1.length ≤ rem0.length := by
        have hle := skipWS_le (skipBom rem0) col
        rw [hsw] at hle
        exact le_trans hle (skipBom_le rem0)
      have h' : nextTokenAt ⟨rem1, line, col1, false⟩ = .ok (t, l2) := by
        simpa [NextToken, hsw] using h
      obtain ⟨h1, h2⟩ := nextTokenAt_progress _ _ _ h'
      exact ⟨le_trans h1 hlen, fun hne => lt_of_lt_of_le (h2 hne) hlen⟩

theorem advanceTokAux_progress : ∀ (n : Nat) (l : Lexer) (t : Token) (l2 : Lexer),
    advanceTokAux n l = .ok (t, l2) →
    l2.rem.length ≤ l.rem.length ∧ (t.type ≠ .eof → l2.rem.length < l.rem.length) := by
  intro n
  induction n with
  | zero => intro l t l2 h; exact nextToken_progress l t l2 h
  | succ n ih =>
    intro l t l2 h
    simp only [advanceTokAux] at h
    cases hnt : NextToken l with
    | error e => rw [hnt] at h; exact absurd h nofun
    | ok v =>
      obtain ⟨t1, lmid⟩ := v
      simp only [hnt] at h
      by_cases hc : t1.type = .comment
      · rw [if_pos hc] at h
        obtain ⟨ha, -⟩ := ih lmid t l2 h
        obtain ⟨-, hc2⟩ := nextToken_progress l t1 lmid hnt
        have hstrict : lmid.rem.length < l.rem.length := hc2 (by rw [hc]; exact nofun)
        exact ⟨le_trans ha (le_of_lt hstrict), fun _ => lt_of_le_of_lt ha hstrict⟩
      · rw [if_neg hc] at h
        simp only [Except.ok.injEq, Prod.mk.injEq] at h
        obtain ⟨rfl, rfl⟩ := h
        exact nextToken_progress _ _ _ hnt

theorem advanceTok_progress (l : Lexer) (t : Token) (l2 : Lexer)
    (h : advanceTok l = .ok (t, l2)) :
    l2.rem.length ≤ l.rem.length ∧ (t.type ≠ .eof → l2.rem.length < l.rem.length) :=
  advanceTokAux_progress l.rem.length l t l2 h

/-- The parser's termination measure: the unread input plus one for a
pending (non-EOF) current token. -/
def pMeasure (p : PState) : Nat :=
  p.lx.rem.length + (if p.current.type = .eof then 0 else 1)

theorem advanceP_measure (p p' : PState) (h : advanceP p = .ok p') :
    pMeasure p' ≤ pMeasure p ∧ (p.current.type ≠ .eof → pMeasure p' < pMeasure p) := by
  simp only [advanceP] at h
  cases hat : advanceTok p.lx with
  | error e => rw [hat] at h; exact absurd h nofun
  | ok v =>
    obtain ⟨t, l⟩ := v
    simp only [hat, Except.ok.injEq] at h
    subst h
    obtain ⟨ha, hb⟩ := advanceTok_progress p.lx t l hat
    by_cases ht : t.type = .eof
    · by_cases hp : p.current.type = .eof <;> simp [pMeasure, ht, hp] <;> omega
    · have hlt := hb ht
      by_cases hp : p.current.type = .eof <;> simp [pMeasure, ht, hp] <;> omega

theorem runP_measure : ∀ (f : Nat),
    (∀ (b : Bool) (p : PState) (q : List Directive × PState),
      runP f (.dirs b p) = .ok q → pMeasure q.2 ≤ pMeasure p)
  ∧ (∀ (p : PState) (q : Directive × PState),
      runP f (.dir p) = .ok q → pMeasure q.2 < pMeasure p)
  ∧ (∀ (p : PState) (q : List String × PState),
      runP f (.args p) = .ok q →
        pMeasure q.2 ≤ pMeasure p ∧ (q.1 ≠ [] → pMeasure q.2 < pMeasure p))
  ∧ (∀ (p q : PState), runP f (.skipNl p) = .ok q → pMeasure q ≤ pMeasure p)
  ∧ (∀ (p : PState) (q : List Directive × PState),
      runP f (.block p) = .ok q → pMeasure q.2 < pMeasure p) := by
  intro f
  induction f with
  | zero =>
    exact ⟨fun b p q h => absurd h nofun, fun p q h => absurd h nofun,
           fun p q h => absurd h nofun, fun p q h => absurd h nofun,
           fun p q h => absurd h nofun⟩
  | succ f ih =>
    obtain ⟨ihdirs, ihdir, ihargs, ihskip, ihblock⟩ := ih
    refine ⟨?_, ?_, ?_, ?_, ?_⟩
    · intro b p q h
      rw [runP_succ] at h
      by_cases h1 : p.current.type = .newline
      · simp only [runPStep, if_pos h1] at h
        cases hadv : advanceP p with
        | error e => rw [hadv] at h; exact absurd h nofun
        | ok p2 =>
          simp only [hadv] at h
          have hm := (advanceP_measure p p2 hadv).1
          exact le_trans (ihdirs b p2 q h) hm
      · by_cases h2 : p.current.type = .eof
        · simp only [runPStep, if_neg h1, if_pos h2] at h
          simp only [PResult.ok.injEq] at h
          subst h
          exact le_rfl
        · by_cases h3 : p.current.type = .rightBrace
          · simp only [runPStep, if_neg h1, if_neg h2, if_pos h3] at h
            split at h
            · simp only [PResult.ok.injEq] at h
              subst h
              exact le_rfl
            · exact absurd h nofun
          · simp only [runPStep, if_neg h1, if_neg h2, if_neg h3] at h
            cases hd : runP f (.dir p) with
            | err e => rw [hd] at h; exact absurd h nofun
            | noFuel => rw [hd] at h; exact absurd h nofun
            | ok v =>
              obtain ⟨d, p2⟩ := v
              simp only [hd] at h
              cases hds : runP f (.dirs b p2) with
              | err e => rw [hds] at h; exact absurd h nofun
              | noFuel => rw [hds] at h; exact absurd h nofun
              | ok v2 =>
                obtain ⟨ds, p3⟩ := v2
                simp only [hds] at h
                simp only [PResult.ok.injEq] at h
                subst h
                have hm1 := ihdir p (d, p2) hd
                have hm2 := ihdirs b p2 (ds, p3) hds
                simp only at hm1 hm2 ⊢
                omega
    · intro p q h
      rw [runP_succ] at h
      simp only [runPStep] at h
      cases ha : runP f (.args p) with
      | err e => rw [ha] at h; exact absurd h nofun
      | noFuel => rw [ha] at h; exact absurd h nofun
      | ok v =>
        obtain ⟨args, p1⟩ := v
        simp only [ha] at h
        have hargs := ihargs p (args, p1) ha
        by_cases he : args.isEmpty
        · rw [if_pos he] at h; exact absurd h nofun
        · rw [if_neg he] at h
          have hstrict : pMeasure p1 < pMeasure p := by
            refine hargs.2 (fun hh => he ?_)
            simp only at hh
            simp [hh]
          cases hs : runP f (.skipNl p1) with
          | err e => rw [hs] at h; exact absurd h nofun
          | noFuel => rw [hs] at h; exact absurd h nofun
          | ok p2 =>
            simp only [hs] at h
            have hskip := ihskip p1 p2 hs
            by_cases hbb : p2.current.type = .leftBrace
            · rw [if_pos hbb] at h
              cases hbl : runP f (.block p2) with
              | err e => rw [hbl] at h; exact absurd h nofun
              | noFuel => rw [hbl] at h; exact absurd h nofun
              | ok v2 =>
                obtain ⟨subs, p3⟩ := v2
                simp only [hbl] at h
                have hblk := ihblock p2 (subs, p3) hbl
                by_cases hsemi : p3.current.type = .semicolon
                · rw [if_pos hsemi] at h
                  cases hadv : advanceP p3 with
                  | error e => rw [hadv] at h; exact absurd h nofun
                  | ok p4 =>
                    simp only [hadv] at h
                    simp only [PResult.ok.injEq] at h
                    subst h
                    have hm := (advanceP_measure p3 p4 hadv).1
                    simp only at hblk ⊢
                    omega
                · rw [if_neg hsemi] at h
                  simp only [PResult.ok.injEq] at h
                  subst h
                  simp only at hblk ⊢
                  omega
            · rw [if_neg hbb] at h
              by_cases hnl : p1.current.type = .newline
              · rw [if_pos hnl] at h
                simp only [PResult.ok.injEq] at h
                subst h
                simp only
                omega
              · rw [if_neg hnl] at h
                by_cases hsemi : p2.current.type = .semicolon
                · rw [if_pos hsemi] at h
                  cases hadv : advanceP p2 with
                  | error e => rw [hadv] at h; exact absurd h nofun
                  | ok p3 =>
                    simp only [hadv] at h
                    simp only [PResult.ok.injEq] at h
                    subst h
                    have hm := (advanceP_measure p2 p3 hadv).1
                    show pMeasure p3 < pMeasure p
                    omega
                · rw [if_neg hsemi] at h
                  by_cases hre : p2.current.type = .rightBrace ∨ p2.current.type = .eof
                  · rw [if_pos hre] at h
                    simp only [PResult.ok.injEq] at h
                    subst h
                    simp only
                    omega
                  · rw [if_neg hre] at h
                    exact absurd h nofun
    · intro p q h
      rw [runP_succ] at h
      by_cases h1 : p.current.type = .lineContinuation
      · simp only [runPStep, if_pos h1] at h
        cases hadv : advanceP p with
        | error e => rw [hadv] at h; exact absurd h nofun
        | ok p2 =>
          simp only [hadv] at h
          have hm := (advanceP_measure p p2 hadv).2 (by rw [h1]; exact nofun)
          have hih := ihargs p2 q h
          exact ⟨le_of_lt (lt_of_le_of_lt hih.1 hm), fun _ => lt_of_le_of_lt hih.1 hm⟩
      · by_cases h2 : p.current.type = .argument
        · simp only [runPStep, if_neg h1, if_pos h2] at h
          cases hadv : advanceP p with
          | error e => rw [hadv] at h; exact absurd h nofun
          | ok p2 =>
            simp only [hadv] at h
            cases ha : runP f (.args p2) with
            | err e => rw [ha] at h; exact absurd h nofun
            | noFuel => rw [ha] at h; exact absurd h nofun
            | ok v =>
              obtain ⟨args2, p3⟩ := v
              simp only [ha] at h
              simp only [PResult.ok.injEq] at h
              subst h
              have hm := (advanceP_measure p p2 hadv).2 (by rw [h2]; exact nofun)
              have hih := ihargs p2 (args2, p3) ha
              simp only at hih ⊢
              exact ⟨le_of_lt (lt_of_le_of_lt hih.1 hm), fun _ => lt_of_le_of_lt hih.1 hm⟩
        · simp only [runPStep, if_neg h1, if_neg h2] at h
          simp only [PResult.ok.injEq] at h
          subst h
          exact ⟨le_rfl, fun hne => absurd rfl hne⟩
    · intro p q h
      rw [runP_succ] at h
      by_cases h1 : p.current.type = .newline
      · simp only [runPStep, if_pos h1] at h
        cases hadv : advanceP p with
        | error e => rw [hadv] at h; exact absurd h nofun
        | ok p2 =>
          simp only [hadv] at h
          have hm := (advanceP_measure p p2 hadv).1
          exact le_trans (ihskip p2 q h) hm
      · simp only [runPStep, if_neg h1] at h
        simp only [PResult.ok.injEq] at h
        subst h
        exact le_rfl
    · intro p q h
      rw [runP_succ] at h
      by_cases h1 : p.current.type = .leftBrace
      · simp only [runPStep, if_neg (by simp [h1] : ¬p.current.type ≠ .leftBrace)] at h
        cases hadv : advanceP p with
        | error e => rw [hadv] at h; exact absurd h nofun
        | ok p1 =>
          simp only [hadv] at h
          have hm := (advanceP_measure p p1 hadv).2 (by rw [h1]; exact nofun)
          cases hds : runP f (.dirs true p1) with
          | err e => rw [hds] at h; exact absurd h nofun
          | noFuel => rw [hds] at h; exact absurd h nofun
          | ok v =>
            obtain ⟨subs, p2⟩ := v
            simp only [hds] at h
            have hdirs := ihdirs true p1 (subs, p2) hds
            by_cases hrb : p2.current.type ≠ .rightBrace
            · rw [if_pos hrb] at h
              exact absurd h nofun
            · rw [if_neg hrb] at h
              cases hadv2 : advanceP p2 with
              | error e => rw [hadv2] at h; exact absurd h nofun
              | ok p3 =>
                simp only [hadv2] at h
                simp only [PResult.ok.injEq] at h
                subst h
                have hm2 := (advanceP_measure p2 p3 hadv2).1
                simp only at hdirs ⊢
                omega
      · simp only [runPStep, if_pos (by simp [h1] : p.current.type ≠ .leftBrace)] at h
        exact absurd h nofun

theorem args_fuel : ∀ (n : Nat) (p : PState) (f : Nat),
    pMeasure p ≤ n → n + 1 ≤ f → runP f (.args p) ≠ .noFuel := by
  intro n
  induction n with
  | zero =>
    intro p f hμ hf hno
    have heof : p.current.type = .eof := by
      by_contra hne
      simp only [pMeasure, if_neg hne] at hμ
      omega
    obtain ⟨f', rfl⟩ : ∃ f', f = f' + 1 := ⟨f - 1, by omega⟩
    rw [runP_succ] at hno
    simp only [runPStep,
      if_neg (by rw [heof]; exact nofun : ¬p.current.type = .lineContinuation),
      if_neg (by rw [heof]; exact nofun : ¬p.current.type = .argument)] at hno
    exact absurd hno nofun
  | succ n ih =>
    intro p f hμ hf hno
    obtain ⟨f', rfl⟩ : ∃ f', f = f' + 1 := ⟨f - 1, by omega⟩
    rw [runP_succ] at hno
    by_cases h1 : p.current.type = .lineContinuation
    · simp only [runPStep, if_pos h1] at hno
      cases hadv : advanceP p with
      | error e => simp only [hadv] at hno; exact absurd hno nofun
      | ok p2 =>
        simp only [hadv] at hno
        have hm := (advanceP_measure p p2 hadv).2 (by rw [h1]; exact nofun)
        exact ih p2 f' (by omega) (by omega) hno
    · by_cases h2 : p.current.type = .argument
      · simp only [runPStep, if_neg h1, if_pos h2] at hno
        cases hadv : advanceP p with
        | error e => simp only [hadv] at hno; exact absurd hno nofun
        | ok p2 =>
          simp only [hadv] at hno
          have hm := (advanceP_measure p p2 hadv).2 (by rw [h2]; exact nofun)
          have hne := ih p2 f' (by omega) (by omega)
          cases ha : runP f' (.args p2) with
          | err e => rw [ha] at hno; exact absurd hno nofun
          | noFuel => exact absurd ha hne
          | ok v => rw [ha] at hno; exact absurd hno nofun
      · simp only [runPStep, if_neg h1, if_neg h2] at hno
        exact absurd hno nofun

theorem skipNl_fuel : ∀ (n : Nat) (p : PState) (f : Nat),
    pMeasure p ≤ n → n + 1 ≤ f → runP f (.skipNl p) ≠ .noFuel := by
  intro n
  induction n with
  | zero =>
    intro p f hμ hf hno
    have heof : p.current.type = .eof := by
      by_contra hne
      simp only [pMeasure, if_neg hne] at hμ
      omega
    obtain ⟨f', rfl⟩ : ∃ f', f = f' + 1 := ⟨f - 1, by omega⟩
    rw [runP_succ] at hno
    simp only [runPStep,
      if_neg (by rw [heof]; exact nofun : ¬p.current.type = .newline)] at hno
    exact absurd hno nofun
  | succ n ih =>
    intro p f hμ hf hno
    obtain ⟨f', rfl⟩ : ∃ f', f = f' + 1 := ⟨f - 1, by omega⟩
    rw [runP_succ] at hno
    by_cases h1 : p.current.type = .newline
    · simp only [runPStep, if_pos h1] at hno
      cases hadv : advanceP p with
      | error e => simp only [hadv] at hno; exact absurd hno nofun
      | ok p2 =>
        simp only [hadv] at hno
        have hm := (advanceP_measure p p2 hadv).2 (by rw [h1]; exact nofun)
        exact ih p2 f' (by omega) (by omega) hno
    · simp only [runPStep, if_neg h1] at hno
      exact absurd hno nofun

theorem parse_fuel : ∀ (n : Nat),
    (∀ (p : PState) (f : Nat), pMeasure p ≤ n → 4 * n + 1 ≤ f →
      runP f (.block p) ≠ .noFuel)
  ∧ (∀ (p : PState) (f : Nat), pMeasure p ≤ n → 4 * n + 3 ≤ f →
      runP f (.dir p) ≠ .noFuel)
  ∧ (∀ (b : Bool) (p : PState) (f : Nat), pMeasure p ≤ n → 4 * n + 4 ≤ f →
      runP f (.dirs b p) ≠ .noFuel) := by
  intro n
  induction n with
  | zero =>
    have heofz : ∀ p : PState, pMeasure p ≤ 0 → p.current.type = .eof := by
      intro p hμ
      by_contra hne
      simp only [pMeasure, if_neg hne] at hμ
      omega
    refine ⟨?_, ?_, ?_⟩
    · intro p f hμ hf hno
      have heof := heofz p hμ
      obtain ⟨f', rfl⟩ : ∃ f', f = f' + 1 := ⟨f - 1, by omega⟩
      rw [runP_succ] at hno
      simp only [runPStep,
        if_pos (by rw [heof]; exact nofun : p.current.type ≠ .leftBrace)] at hno
      exact absurd hno nofun
    · intro p f hμ hf hno
      have heof := heofz p hμ
      obtain ⟨f', rfl⟩ : ∃ f', f = f' + 1 := ⟨f - 1, by omega⟩
      rw [runP_succ] at hno
      simp only [runPStep] at hno
      have hargsne := args_fuel 0 p f' hμ (by omega)
      cases ha : runP f' (.args p) with
      | err e => rw [ha] at hno; exact absurd hno nofun
      | noFuel => exact absurd ha hargsne
      | ok v =>
        obtain ⟨args, p1⟩ := v
        simp only [ha] at hno
        have hargm := (runP_measure f').2.2.1 p (args, p1) ha
        have he : args.isEmpty := by
          by_contra hne
          have := hargm.2 (fun hh => hne (by simp only at hh; simp [hh]))
          omega
        rw [if_pos he] at hno
        exact absurd hno nofun
    · intro b p f hμ hf hno
      have heof := heofz p hμ
      obtain ⟨f', rfl⟩ : ∃ f', f = f' + 1 := ⟨f - 1, by omega⟩
      rw [runP_succ] at hno
      simp only [runPStep,
        if_neg (by rw [heof]; exact nofun : ¬p.current.type = .newline),
        if_pos heof] at hno
      exact absurd hno nofun
  | succ n ih =>
    obtain ⟨ihblock, ihdir, ihdirs⟩ := ih
    have Hblock : ∀ (p : PState) (f : Nat), pMeasure p ≤ n + 1 → 4 * (n + 1) + 1 ≤ f →
        runP f (.block p) ≠ .noFuel := by
      intro p f hμ hf hno
      obtain ⟨f', rfl⟩ : ∃ f', f = f' + 1 := ⟨f - 1, by omega⟩
      rw [runP_succ] at hno
      by_cases h1 : p.current.type = .leftBrace
      · simp only [runPStep, if_neg (by simp [h1] : ¬p.current.type ≠ .leftBrace)] at hno
        cases hadv : advanceP p with
        | error e => simp only [hadv] at hno; exact absurd hno nofun
        | ok p1 =>
          simp only [hadv] at hno
          have hm := (advanceP_measure p p1 hadv).2 (by rw [h1]; exact nofun)
          have hdirsne := ihdirs true p1 f' (by omega) (by omega)
          cases hds : runP f' (.dirs true p1) with
          | err e => rw [hds] at hno; exact absurd hno nofun
          | noFuel => exact absurd hds hdirsne
          | ok v =>
            obtain ⟨subs, p2⟩ := v
            simp only [hds] at hno
            by_cases hrb : p2.current.type ≠ .rightBrace
            · rw [if_pos hrb] at hno; exact absurd hno nofun
            · rw [if_neg hrb] at hno
              cases hadv2 : advanceP p2 with
              | error e => simp only [hadv2] at hno; exact absurd hno nofun
              | ok p3 => simp only [hadv2] at hno; exact absurd hno nofun
      · simp only [runPStep, if_pos (by simp [h1] : p.current.type ≠ .leftBrace)] at hno
        exact absurd hno nofun
    have Hdir : ∀ (p : PState) (f : Nat), pMeasure p ≤ n + 1 → 4 * (n + 1) + 3 ≤ f →
        runP f (.dir p) ≠ .noFuel := by
      intro p f hμ hf hno
      obtain ⟨f', rfl⟩ : ∃ f', f = f' + 1 := ⟨f - 1, by omega⟩
      rw [runP_succ] at hno
      simp only [runPStep] at hno
      have hargsne := args_fuel (n + 1) p f' hμ (by omega)
      cases ha : runP f' (.args p) with
      | err e => rw [ha] at hno; exact absurd hno nofun
      | noFuel => exact absurd ha hargsne
      | ok v =>
        obtain ⟨args, p1⟩ := v
        simp only [ha] at hno
        have hargm := (runP_measure f').2.2.1 p (args, p1) ha
        by_cases he : args.isEmpty
        · rw [if_pos he] at hno; exact absurd hno nofun
        · rw [if_neg he] at hno
          have hstrict : pMeasure p1 < pMeasure p := by
            refine hargm.2 (fun hh => he ?_)
            simp only at hh
            simp [hh]
          have hskipne := skipNl_fuel n p1 f' (by simp only at hargm; omega) (by omega)
          cases hs : runP f' (.skipNl p1) with
          | err e => rw [hs] at hno; exact absurd hno nofun
          | noFuel => exact absurd hs hskipne
          | ok p2 =>
            simp only [hs] at hno
            have hskipm := (runP_measure f').2.2.2.1 p1 p2 hs
            by_cases hbb : p2.current.type = .leftBrace
            · rw [if_pos hbb] at hno
              have hblockne := ihblock p2 f' (by omega) (by omega)
              cases hbl : runP f' (.block p2) with
              | err e => rw [hbl] at hno; exact absurd hno nofun
              | noFuel => exact absurd hbl hblockne
              | ok v2 =>
                obtain ⟨subs, p3⟩ := v2
                simp only [hbl] at hno
                by_cases hsemi : p3.current.type = .semicolon
                · rw [if_pos hsemi] at hno
                  cases hadv : advanceP p3 with
                  | error e => simp only [hadv] at hno; exact absurd hno nofun
                  | ok p4 => simp only [hadv] at hno; exact absurd hno nofun
                · rw [if_neg hsemi] at hno; exact absurd hno nofun
            · rw [if_neg hbb] at hno
              by_cases hnl : p1.current.type = .newline
              · rw [if_pos hnl] at hno; exact absurd hno nofun
              · rw [if_neg hnl] at hno
                by_cases hsemi : p2.current.type = .semicolon
                · rw [if_pos hsemi] at hno
                  cases hadv : advanceP p2 with
                  | error e => simp only [hadv] at hno; exact absurd hno nofun
                  | ok p3 => simp only [hadv] at hno; exact absurd hno nofun
                · rw [if_neg hsemi] at hno
                  by_cases hre : p2.current.type = .rightBrace ∨ p2.current.type = .eof
                  · rw [if_pos hre] at hno; exact absurd hno nofun
                  · rw [if_neg hre] at hno; exact absurd hno nofun
    have Hdirs : ∀ (b : Bool) (p : PState) (f : Nat), pMeasure p ≤ n + 1 →
        4 * (n + 1) + 4 ≤ f → runP f (.dirs b p) ≠ .noFuel := by
      intro b p f hμ hf hno
      obtain ⟨f', rfl⟩ : ∃ f', f = f' + 1 := ⟨f - 1, by omega⟩
      rw [runP_succ] at hno
      by_cases h1 : p.current.type = .newline
      · simp only [runPStep, if_pos h1] at hno
        cases hadv : advanceP p with
        | error e => simp only [hadv] at hno; exact absurd hno nofun
        | ok p2 =>
          simp only [hadv] at hno
          have hm := (advanceP_measure p p2 hadv).2 (by rw [h1]; exact nofun)
          exact ihdirs b p2 f' (by omega) (by omega) hno
      · by_cases h2 : p.current.type = .eof
        · simp only [runPStep, if_neg h1, if_pos h2] at hno
          exact absurd hno nofun
        · by_cases h3 : p.current.type = .rightBrace
          · simp only [runPStep, if_neg h1, if_neg h2, if_pos h3] at hno
            split at hno
            · exact absurd hno nofun
            · exact absurd hno nofun
          · simp only [runPStep, if_neg h1, if_neg h2, if_neg h3] at hno
            have hdirne := Hdir p f' hμ (by omega)
            cases hd : runP f' (.dir p) with
            | err e => rw [hd] at hno; exact absurd hno nofun
            | noFuel => exact absurd hd hdirne
            | ok v =>
              obtain ⟨d, p2⟩ := v
              simp only [hd] at hno
              have hm := (runP_measure f').2.1 p (d, p2) hd
              simp only at hm
              have hdirsne := ihdirs b p2 f' (by omega) (by omega)
              cases hds : runP f' (.dirs b p2) with
              | err e => rw [hds] at hno; exact absurd hno nofun
              | noFuel => exact absurd hds hdirsne
              | ok v2 =>
                obtain ⟨ds, p3⟩ := v2
                rw [hds] at hno
                exact absurd hno nofun
    exact ⟨Hblock, Hdir, Hdirs⟩

theorem Parse_ne_noFuel (input : List Char) : Parse input ≠ .noFuel := by
  unfold Parse ParseWith
  cases hadv : advanceTok (initLexer input) with
  | error e => exact nofun
  | ok v =>
    obtain ⟨t, l⟩ := v
    have hlen : l.rem.length ≤ input.length := by
      have hle := (advanceTok_progress (initLexer input) t l hadv).1
      simpa [initLexer] using hle
    have hμ : pMeasure ⟨l, t⟩ ≤ input.length + 1 := by
      simp only [pMeasure]
      split <;> omega
    have hne := (parse_fuel (input.length + 1)).2.2 false ⟨l, t⟩
      (4 * input.length + 8) hμ (by omega)
    simp only [parseDirectives]
    cases hds : runP (4 * input.length + 8) (.dirs false ⟨l, t⟩) with
    | err e => exact nofun
    | noFuel => exact absurd hds hne
    | ok v2 => exact nofun

/-- Claim C9: parsing always terminates — every successful call to the
tokenizer's next-token operation either returns the end-of-input token or
consumes at least one input character (otherwise it returns an error), and
consequently the whole parse, run with the fuel `4 * |input| + 8` linear in
the input size, never exhausts its fuel. -/
theorem claim_C9_termination :
    (∀ (l : Lexer) (t : Token) (l2 : Lexer), NextToken l = .ok (t, l2) →
        t.type = .eof ∨ l2.rem.length < l.rem.length)
  ∧ (∀ input : List Char, Parse input ≠ .noFuel) := by
  constructor
  · intro l t l2 h
    by_cases ht : t.type = .eof
    · exact Or.inl ht
    · exact Or.inr ((nextToken_progress l t l2 h).2 ht)
  · exact Parse_ne_noFuel

theorem claim_C9_witness :
    ((⟨TokenType.argument, "a", 1, 1⟩ : Token).type = .eof ∨
      (⟨[], 1, 2, false⟩ : Lexer).rem.length < (initLexer ['a']).rem.length)
    ∧ Parse ['a'] ≠ .noFuel :=
  ⟨claim_C9_termination.1 (initLexer ['a']) ⟨.argument, "a", 1, 1⟩ ⟨[], 1, 2, false⟩ rfl,
   claim_C9_termination.2 ['a']⟩

/-! ## Claim C1: directives always carry at least one argument -/

mutual
/-- A directive all of whose directives, recursively, have a non-empty
argument list. -/
def goodDir : Directive → Bool
  | .mk args subs => !args.isEmpty && goodDirs subs

/-- `goodDir` over a directive list. -/
def goodDirs : List Directive → Bool
  | [] => true
  | d :: ds => goodDir d && goodDirs ds
end

theorem runP_good : ∀ (f : Nat),
    (∀ (b : Bool) (p : PState) (ds : List Directive) (p' : PState),
      runP f (.dirs b p) = .ok (ds, p') → goodDirs ds = true)
  ∧ (∀ (p : PState) (d : Directive) (p' : PState),
      runP f (.dir p) = .ok (d, p') → goodDir d = true)
  ∧ (∀ (p : PState) (ds : List Directive) (p' : PState),
      runP f (.block p) = .ok (ds, p') → goodDirs ds = true) := by
  intro f
  induction f with
  | zero =>
    exact ⟨fun b p ds p' h => absurd h nofun, fun p d p' h => absurd h nofun,
           fun p ds p' h => absurd h nofun⟩
  | succ f ih =>
    obtain ⟨ihdirs, ihdir, ihblock⟩ := ih
    refine ⟨?_, ?_, ?_⟩
    · intro b p ds p' h
      rw [runP_succ] at h
      by_cases h1 : p.current.type = .newline
      · simp only [runPStep, if_pos h1] at h
        cases hadv : advanceP p with
        | error e => rw [hadv] at h; exact absurd h nofun
        | ok p2 =>
          simp only [hadv] at h
          exact ihdirs b p2 ds p' h
      · by_cases h2 : p.current.type = .eof
        · simp only [runPStep, if_neg h1, if_pos h2] at h
          simp only [PResult.ok.injEq] at h
          injection h with h3 hdrop
          subst h3
          rfl
        · by_cases h3 : p.current.type = .rightBrace
          · simp only [runPStep, if_neg h1, if_neg h2, if_pos h3] at h
            split at h
            · simp only [PResult.ok.injEq] at h
              injection h with h4 hdrop
              subst h4
              rfl
            · exact absurd h nofun
          · simp only [runPStep, if_neg h1, if_neg h2, if_neg h3] at h
            cases hd : runP f (.dir p) with
            | err e => rw [hd] at h; exact absurd h nofun
            | noFuel => rw [hd] at h; exact absurd h nofun
            | ok v =>
              obtain ⟨d, p2⟩ := v
              simp only [hd] at h
              cases hds2 : runP f (.dirs b p2) with
              | err e => rw [hds2] at h; exact absurd h nofun
              | noFuel => rw [hds2] at h; exact absurd h nofun
              | ok v2 =>
                obtain ⟨ds2, p3⟩ := v2
                simp only [hds2] at h
                simp only [PResult.ok.injEq] at h
                injection h with h4 hdrop
                subst h4
                have g1 := ihdir p d p2 hd
                have g2 := ihdirs b p2 ds2 p3 hds2
                simp [goodDirs, g1, g2]
    · intro p d p' h
      rw [runP_succ] at h
      simp only [runPStep] at h
      cases ha : runP f (.args p) with
      | err e => rw [ha] at h; exact absurd h nofun
      | noFuel => rw [ha] at h; exact absurd h nofun
      | ok v =>
        obtain ⟨args, p1⟩ := v
        simp only [ha] at h
        by_cases he : args.isEmpty
        · rw [if_pos he] at h; exact absurd h nofun
        · rw [if_neg he] at h
          have hne : (!args.isEmpty) = true := by
            revert he; cases args.isEmpty <;> simp
          cases hs : runP f (.skipNl p1) with
          | err e => rw [hs] at h; exact absurd h nofun
          | noFuel => rw [hs] at h; exact absurd h nofun
          | ok p2 =>
            simp only [hs] at h
            by_cases hbb : p2.current.type = .leftBrace
            · rw [if_pos hbb] at h
              cases hbl : runP f (.block p2) with
              | err e => rw [hbl] at h; exact absurd h nofun
              | noFuel => rw [hbl] at h; exact absurd h nofun
              | ok v2 =>
                obtain ⟨subs, p3⟩ := v2
                simp only [hbl] at h
                have gsubs := ihblock p2 subs p3 hbl
                by_cases hsemi : p3.current.type = .semicolon
                · rw [if_pos hsemi] at h
                  cases hadv : advanceP p3 with
                  | error e => rw [hadv] at h; exact absurd h nofun
                  | ok p4 =>
                    simp only [hadv] at h
                    simp only [PResult.ok.injEq] at h
                    injection h with h4 hdrop
                    subst h4
                    simp [goodDir, hne, gsubs]
                · rw [if_neg hsemi] at h
                  simp only [PResult.ok.injEq] at h
                  injection h with h4 hdrop
                  subst h4
                  simp [goodDir, hne, gsubs]
            · rw [if_neg hbb] at h
              by_cases hnl : p1.current.type = .newline
              · rw [if_pos hnl] at h
                simp only [PResult.ok.injEq] at h
                injection h with h4 hdrop
                subst h4
                simp [goodDir, goodDirs, hne]
              · rw [if_neg hnl] at h
                by_cases hsemi : p2.current.type = .semicolon
                · rw [if_pos hsemi] at h
                  cases hadv : advanceP p2 with
                  | error e => rw [hadv] at h; exact absurd h nofun
                  | ok p3 =>
                    simp only [hadv] at h
                    simp only [PResult.ok.injEq] at h
                    injection h with h4 hdrop
                    subst h4
                    simp [goodDir, goodDirs, hne]
                · rw [if_neg hsemi] at h
                  by_cases hre : p2.current.type = .rightBrace ∨ p2.current.type = .eof
                  · rw [if_pos hre] at h
                    simp only [PResult.ok.injEq] at h
                    injection h with h4 hdrop
                    subst h4
                    simp [goodDir, goodDirs, hne]
                  · rw [if_neg hre] at h; exact absurd h nofun
    · intro p ds p' h
      rw [runP_succ] at h
      by_cases h1 : p.current.type = .leftBrace
      · simp only [runPStep, if_neg (by simp [h1] : ¬p.current.type ≠ .leftBrace)] at h
        cases hadv : advanceP p with
        | error e => rw [hadv] at h; exact absurd h nofun
        | ok p1 =>
          simp only [hadv] at h
          cases hds2 : runP f (.dirs true p1) with
          | err e => rw [hds2] at h; exact absurd h nofun
          | noFuel => rw [hds2] at h; exact absurd h nofun
          | ok v =>
            obtain ⟨subs, p2⟩ := v
            simp only [hds2] at h
            have gsubs := ihdirs true p1 subs p2 hds2
            by_cases hrb : p2.current.type ≠ .rightBrace
            · rw [if_pos hrb] at h; exact absurd h nofun
            · rw [if_neg hrb] at h
              cases hadv2 : advanceP p2 with
              | error e => rw [hadv2] at h; exact absurd h nofun
              | ok p3 =>
                simp only [hadv2] at h
                simp only [PResult.ok.injEq] at h
                injection h with h4 hdrop
                subst h4
                exact gsubs
      · simp only [runPStep, if_pos (by simp [h1] : p.current.type ≠ .leftBrace)] at h
        exact absurd h nofun

/-- Claim C1: on every input on which `parse` succeeds, every directive of
the resulting configuration unit — at any nesting depth — has at least one
argument; a bare terminator with no preceding arguments, `parse ";"`, fails
with the missing-arguments error. -/
theorem claim_C1_nonEmptyArguments :
    (∀ (input : List Char) (cu : ConfigurationUnit), Parse input = .ok cu →
      goodDirs cu.directives = true) ∧
    ParseString ";" = .err (.missingArguments 1) := by
  constructor
  · intro input cu h
    unfold Parse ParseWith at h
    cases hadv : advanceTok (initLexer input) with
    | error e => rw [hadv] at h; exact absurd h nofun
    | ok v =>
      obtain ⟨t, l⟩ := v
      simp only [hadv] at h
      simp only [parseDirectives] at h
      cases hds : runP (4 * input.length + 8) (.dirs false ⟨l, t⟩) with
      | err e => rw [hds] at h; exact absurd h nofun
      | noFuel => rw [hds] at h; exact absurd h nofun
      | ok v2 =>
        obtain ⟨ds, p'⟩ := v2
        simp only [hds] at h
        simp only [PResult.ok.injEq] at h
        subst h
        exact (runP_good (4 * input.length + 8)).1 false ⟨l, t⟩ ds p' hds
  · exact Parse_eval 8 (by decide) (by decide) (by decide)

theorem claim_C1_witness :
    goodDirs (ConfigurationUnit.mk [.mk ["a"] []]).directives = true ∧
    ParseString ";" = .err (.missingArguments 1) :=
  ⟨claim_C1_nonEmptyArguments.1 ['a'] ⟨[.mk ["a"] []]⟩
      (Parse_eval 6 (by decide) (by decide) (by decide)),
   claim_C1_nonEmptyArguments.2⟩

/-! ## Claim C3: the two unmatched-brace situations -/

theorem runP_dirs_stop : ∀ (f : Nat) (b : Bool) (p : PState) (ds : List Directive)
    (p' : PState), runP f (.dirs b p) = .ok (ds, p') →
    p'.current.type = .eof ∨ p'.current.type = .rightBrace := by
  intro f
  induction f with
  | zero => intro b p ds p' h; exact absurd h nofun
  | succ f ih =>
    intro b p ds p' h
    rw [runP_succ] at h
    by_cases h1 : p.current.type = .newline
    · simp only [runPStep, if_pos h1] at h
      cases hadv : advanceP p with
      | error e => rw [hadv] at h; exact absurd h nofun
      | ok p2 =>
        simp only [hadv] at h
        exact ih b p2 ds p' h
    · by_cases h2 : p.current.type = .eof
      · simp only [runPStep, if_neg h1, if_pos h2] at h
        simp only [PResult.ok.injEq] at h
        injection h with hdrop h5
        subst h5
        exact Or.inl h2
      · by_cases h3 : p.current.type = .rightBrace
        · simp only [runPStep, if_neg h1, if_neg h2, if_pos h3] at h
          split at h
          · simp only [PResult.ok.injEq] at h
            injection h with hdrop h5
            subst h5
            exact Or.inr h3
          · exact absurd h nofun
        · simp only [runPStep, if_neg h1, if_neg h2, if_neg h3] at h
          cases hd : runP f (.dir p) with
          | err e => rw [hd] at h; exact absurd h nofun
          | noFuel => rw [hd] at h; exact absurd h nofun
          | ok v =>
            obtain ⟨d, p2⟩ := v
            simp only [hd] at h
            cases hds2 : runP f (.dirs b p2) with
            | err e => rw [hds2] at h; exact absurd h nofun
            | noFuel => rw [hds2] at h; exact absurd h nofun
            | ok v2 =>
              obtain ⟨ds2, p3⟩ := v2
              simp only [hds2] at h
              simp only [PResult.ok.injEq] at h
              injection h with hdrop h5
              subst h5
              exact ih b p2 ds2 p3 hds2

/-- Claim C3: the parser produces an `UnmatchedBrace` error in exactly the
two brace situations — a right-brace token reached in the top-level
directive list is the unexpected-right-brace error; the directive-list loop
otherwise only stops at EOF or at a right brace, so a block whose inner
list stopped at EOF (the opening brace was never matched) is the
expected-right-brace error; both error values are the `UnmatchedBrace`
kind.  Concretely, `parse "a \x7d"` (right brace at top level) and
`parse "a \x7b b"` (end of input inside an open block) fail this way. -/
theorem claim_C3_unmatchedBrace :
    (∀ (p : PState) (f : Nat), p.current.type = .rightBrace →
      runP (f + 1) (.dirs false p) = .err (.unexpectedRightBrace p.current.line) ∧
      (Err.unexpectedRightBrace p.current.line).isUnmatchedBrace = true)
  ∧ (∀ (f : Nat) (b : Bool) (p : PState) (ds : List Directive) (p' : PState),
      runP f (.dirs b p) = .ok (ds, p') →
      p'.current.type = .eof ∨ p'.current.type = .rightBrace)
  ∧ (∀ (p p1 : PState) (subs : List Directive) (p2 : PState) (f : Nat),
      p.current.type = .leftBrace → advanceP p = .ok p1 →
      runP f (.dirs true p1) = .ok (subs, p2) → p2.current.type = .eof →
      runP (f + 1) (.block p) =
        .err (.expectedRightBrace p2.current.line p2.current.type) ∧
      (Err.expectedRightBrace p2.current.line p2.current.type).isUnmatchedBrace = true)
  ∧ ParseString "a \x7d" = .err (.unexpectedRightBrace 1)
  ∧ ParseString "a \x7b b" = .err (.expectedRightBrace 1 .eof) := by
  refine ⟨?_, runP_dirs_stop, ?_, ?_, ?_⟩
  · intro p f hrb
    constructor
    · rw [runP_succ]
      simp only [runPStep, if_neg (by rw [hrb]; exact nofun : ¬p.current.type = .newline),
        if_neg (by rw [hrb]; exact nofun : ¬p.current.type = .eof), if_pos hrb]
      rfl
    · rfl
  · intro p p1 subs p2 f hlb hadv hds heof
    constructor
    · rw [runP_succ]
      simp only [runPStep, if_neg (by simp [hlb] : ¬p.current.type ≠ .leftBrace), hadv, hds]
      rw [if_pos (by rw [heof]; exact nofun : p2.current.type ≠ .rightBrace)]
    · rfl
  · exact Parse_eval 8 (by decide) (by decide) (by decide)
  · exact Parse_eval 8 (by decide) (by decide) (by decide)

theorem claim_C3_witness :
    (runP 1 (.dirs false ⟨⟨[], 1, 2, false⟩, ⟨.rightBrace, "\x7d", 1, 1⟩⟩) =
        .err (.unexpectedRightBrace 1) ∧
      (Err.unexpectedRightBrace 1).isUnmatchedBrace = true) ∧
    ((⟨⟨[], 1, 1, false⟩, ⟨.eof, "", 1, 1⟩⟩ : PState).current.type = .eof ∨
      (⟨⟨[], 1, 1, false⟩, ⟨.eof, "", 1, 1⟩⟩ : PState).current.type = .rightBrace) ∧
    (runP 2 (.block ⟨⟨[], 1, 2, false⟩, ⟨.leftBrace, "\x7b", 1, 1⟩⟩) =
        .err (.expectedRightBrace 1 .eof) ∧
      (Err.expectedRightBrace 1 .eof).isUnmatchedBrace = true) :=
  ⟨claim_C3_unmatchedBrace.1 ⟨⟨[], 1, 2, false⟩, ⟨.rightBrace, "\x7d", 1, 1⟩⟩ 0 rfl,
   claim_C3_unmatchedBrace.2.1 1 false ⟨⟨[], 1, 1, false⟩, ⟨.eof, "", 1, 1⟩⟩ []
     ⟨⟨[], 1, 1, false⟩, ⟨.eof, "", 1, 1⟩⟩ rfl,
   claim_C3_unmatchedBrace.2.2.1 ⟨⟨[], 1, 2, false⟩, ⟨.leftBrace, "\x7b", 1, 1⟩⟩
     ⟨⟨[], 1, 2, false⟩, ⟨.eof, "", 1, 2⟩⟩ [] ⟨⟨[], 1, 2, false⟩, ⟨.eof, "", 1, 2⟩⟩ 1
     rfl rfl rfl rfl⟩

/-! ## Claim C8: the rendering re-parses with once-more-wrapped arguments -/

theorem scanSimpleAux_plainStep (line : Nat) (c : Char) (tail : List Char) (col : Nat)
    (buf : String) (hc1 : IsArgumentChar c = true) (hc2 : c ≠ '\\') :
    scanSimpleAux line (c :: tail) col buf = scanSimpleAux line tail (col + 1) (buf.push c) := by
  rcases tail with _ | ⟨h1, t1⟩
  · rw [scanSimpleAux.eq_2, if_neg hc2]
    simp [hc1]
  · by_cases h35 : h1 = '\r' ∧ ∃ r3, t1 = '\n' :: r3
    · obtain ⟨rfl, r3, rfl⟩ := h35
      rw [scanSimpleAux.eq_3, if_neg hc2]
      simp [hc1]
    · rw [scanSimpleAux.eq_4 _ _ _ _ _ _ (fun r3 hr hn => h35 ⟨hr, r3, hn⟩), if_neg hc2]
      simp [hc1]

theorem scanSimpleAux_plain : ∀ (w : List Char),
    (∀ c ∈ w, IsArgumentChar c = true ∧ c ≠ '\\') →
    ∀ (line : Nat) (rest : List Char) (col : Nat) (buf : String),
    scanSimpleAux line (w ++ rest) col buf =
      scanSimpleAux line rest (col + w.length) (String.mk (buf.data ++ w)) := by
  intro w
  induction w with
  | nil =>
    intro hw line rest col buf
    simp [show String.mk buf.data = buf from rfl]
  | cons c w2 ih =>
    intro hw line rest col buf
    obtain ⟨hc1, hc2⟩ := hw c (List.mem_cons_self c w2)
    rw [List.cons_append, scanSimpleAux_plainStep line c (w2 ++ rest) col buf hc1 hc2,
      ih (fun x hx => hw x (List.mem_cons_of_mem c hx)) line rest (col + 1) (buf.push c)]
    have hcol : col + 1 + w2.length = col + (w2.length + 1) := by omega
    have hbuf : (buf.push c).data ++ w2 = buf.data ++ (c :: w2) := by simp [String.data_push]
    rw [hcol, hbuf]
    simp

theorem advanceTok_noncomment (l : Lexer) (t : Token) (l2 : Lexer)
    (h : NextToken l = .ok (t, l2)) (hc : t.type ≠ .comment) :
    advanceTok l = .ok (t, l2) := by
  unfold advanceTok
  cases hn : l.rem.length with
  | zero => exact h
  | succ m =>
    simp only [advanceTokAux, h]
    rw [if_neg hc]

/-- The character stream of `printArgs` on plain (already-`String.mk`-free)
argument lists; proved to match `printArgs` in `printArgs_data`. -/
def renderArgsChars : List (List Char) → List Char
  | [] => []
  | [s] => '<' :: (s ++ ['>'])
  | s :: rest => '<' :: (s ++ ('>' :: ' ' :: renderArgsChars rest))

/-- What remains of a flat rendering after its first wrapped argument. -/
def restText : List (List Char) → List Char
  | [] => ['\n']
  | s :: rest => ' ' :: (renderArgsChars (s :: rest) ++ ['\n'])

theorem renderText_shape (s : List Char) (rest : List (List Char)) :
    renderArgsChars (s :: rest) ++ ['\n'] = ('<' :: (s ++ ['>'])) ++ restText rest := by
  cases rest with
  | nil => simp [renderArgsChars, restText]
  | cons s2 rest2 => simp [renderArgsChars, restText]

theorem printArgs_data : ∀ (args : List (List Char)),
    (printArgs (args.map String.mk)).data = renderArgsChars args := by
  intro args
  induction args with
  | nil => simp [printArgs, renderArgsChars, show ("" : String).data = ([] : List Char) from rfl]
  | cons s rest ih =>
    cases rest with
    | nil =>
      simp [printArgs, renderArgsChars, String.data_append,
        show "<".data = ['<'] from rfl, show ">".data = ['>'] from rfl,
        show (String.mk s).data = s from rfl]
    | cons s2 rest2 =>
      simp only [List.map_cons] at ih ⊢
      simp [printArgs, renderArgsChars, String.data_append, ih,
        show "<".data = ['<'] from rfl, show "> ".data = ['>', ' '] from rfl,
        show (String.mk s).data = s from rfl]

theorem render_flat_data (args : List (List Char)) :
    (render ⟨[.mk (args.map String.mk) []]⟩).data = renderArgsChars args ++ ['\n'] := by
  simp [render, printDirectives, printDirective, indentStr, String.data_append,
    printArgs_data, show "\n".data = ['\n'] from rfl,
    show ("" : String).data = ([] : List Char) from rfl]

theorem renderArgsChars_len_ge : ∀ (args : List (List Char)),
    args.length ≤ (renderArgsChars args).length := by
  intro args
  induction args with
  | nil => simp [renderArgsChars]
  | cons s rest ih =>
    cases rest with
    | nil =>
      simp only [renderArgsChars, List.length_cons, List.length_append,
        List.length_nil]
      omega
    | cons s2 rest2 =>
      simp only [renderArgsChars, List.length_cons, List.length_append,
        List.length_nil] at ih ⊢
      omega

theorem restText_len_ge (rest : List (List Char)) : rest.length ≤ (restText rest).length := by
  cases rest with
  | nil => simp [restText]
  | cons s r =>
    have h := renderArgsChars_len_ge (s :: r)
    simp only [List.length_cons] at h
    simp only [restText, List.length_cons, List.length_append, List.length_nil]
    omega

theorem renderArgsChars_wrap_len : ∀ (args : List (List Char)),
    (renderArgsChars (args.map (fun s => '<' :: (s ++ ['>'])))).length =
      (renderArgsChars args).length + 2 * args.length := by
  intro args
  induction args with
  | nil => simp [renderArgsChars]
  | cons s rest ih =>
    cases rest with
    | nil =>
      simp only [List.map_cons, List.map_nil, renderArgsChars, List.length_cons,
        List.length_append, List.length_nil]
      try omega
    | cons s2 rest2 =>
      simp only [List.map_cons, renderArgsChars, List.length_cons,
        List.length_append, List.length_nil] at ih ⊢
      omega

theorem scanSimpleAux_stop (line : Nat) (c : Char) (tail : List Char) (col : Nat)
    (buf : String) (hc : IsArgumentChar c = false) (hc2 : c ≠ '\\') :
    scanSimpleAux line (c :: tail) col buf = .tok buf (c :: tail) col := by
  rcases tail with _ | ⟨h1, t1⟩
  · rw [scanSimpleAux.eq_2, if_neg hc2]
    simp [hc]
  · by_cases h35 : h1 = '\r' ∧ ∃ r3, t1 = '\n' :: r3
    · obtain ⟨rfl, r3, rfl⟩ := h35
      rw [scanSimpleAux.eq_3, if_neg hc2]
      simp [hc]
    · rw [scanSimpleAux.eq_4 _ _ _ _ _ _ (fun r3 hr hn => h35 ⟨hr, r3, hn⟩), if_neg hc2]
      simp [hc]

theorem scanSimpleArgument_rendered (s : List Char) (rest : List (List Char)) (col : Nat)
    (hs : ∀ c ∈ s, IsArgumentChar c = true ∧ c ≠ '\\') :
    scanSimpleArgument ⟨('<' :: (s ++ ['>'])) ++ restText rest, 1, col, false⟩ =
      .ok (⟨.argument, String.mk ('<' :: (s ++ ['>'])), 1, col⟩,
           ⟨restText rest, 1, col + (s.length + 2), false⟩) := by
  have hw : ∀ c ∈ '<' :: (s ++ ['>']), IsArgumentChar c = true ∧ c ≠ '\\' := by
    intro c hcmem
    rcases List.mem_cons.mp hcmem with rfl | hmem
    · exact ⟨by decide, by decide⟩
    · rcases List.mem_append.mp hmem with hmem2 | hmem2
      · exact hs c hmem2
      · simp at hmem2
        subst hmem2
        exact ⟨by decide, by decide⟩
  have hstop : scanSimpleAux 1 (restText rest) (col + (s.length + 2))
      (String.mk ('<' :: (s ++ ['>']))) =
      .tok (String.mk ('<' :: (s ++ ['>']))) (restText rest) (col + (s.length + 2)) := by
    cases rest with
    | nil => exact scanSimpleAux_stop 1 '\n' [] _ _ (by decide) (by decide)
    | cons s2 rest2 =>
      exact scanSimpleAux_stop 1 ' ' (renderArgsChars (s2 :: rest2) ++ ['\n']) _ _
        (by decide) (by decide)
  have haux : scanSimpleAux 1 (('<' :: (s ++ ['>'])) ++ restText rest) col "" =
      .tok (String.mk ('<' :: (s ++ ['>']))) (restText rest) (col + (s.length + 2)) := by
    rw [scanSimpleAux_plain ('<' :: (s ++ ['>'])) hw 1 (restText rest) col ""]
    have hlen : col + ('<' :: (s ++ ['>'])).length = col + (s.length + 2) := by
      simp
      try omega
    rw [hlen, show ("" : String).data = ([] : List Char) from rfl]
    simpa using hstop
  simp only [scanSimpleArgument]
  rw [haux]

theorem argsLoop_rendered : ∀ (rest : List (List Char)) (f col : Nat) (t0 : Token),
    rest.length + 2 ≤ f →
    (∀ s ∈ rest, ∀ c ∈ s, IsArgumentChar c = true ∧ c ≠ '\\') →
    t0.type = .argument →
    ∃ colN : Nat, runP f (.args ⟨⟨restText rest, 1, col, false⟩, t0⟩) =
      .ok (t0.value :: rest.map (fun s => String.mk ('<' :: (s ++ ['>']))),
           ⟨⟨[], 2, 1, false⟩, ⟨.newline, "", 1, colN⟩⟩) := by
  intro rest
  induction rest with
  | nil =>
    intro f col t0 hf hs ht
    obtain ⟨f2, rfl⟩ : ∃ f2, f = f2 + 1 + 1 := ⟨f - 2, by omega⟩
    refine ⟨col, ?_⟩
    have hadv : advanceP ⟨⟨restText [], 1, col, false⟩, t0⟩ =
        .ok ⟨⟨[], 2, 1, false⟩, ⟨.newline, "", 1, col⟩⟩ := rfl
    have hstop : runP (f2 + 1) (.args ⟨⟨[], 2, 1, false⟩, ⟨.newline, "", 1, col⟩⟩) =
        .ok ([], ⟨⟨[], 2, 1, false⟩, ⟨.newline, "", 1, col⟩⟩) := by
      rw [runP_succ]
      simp [runPStep]
    rw [runP_succ]
    simp [runPStep, ht, hadv, hstop]
  | cons s rest2 ih =>
    intro f col t0 hf hs ht
    obtain ⟨f1, rfl⟩ : ∃ f1, f = f1 + 1 := ⟨f - 1, by omega⟩
    have hnt : NextToken ⟨restText (s :: rest2), 1, col, false⟩ =
        .ok (⟨.argument, String.mk ('<' :: (s ++ ['>'])), 1, col + 1⟩,
             ⟨restText rest2, 1, col + 1 + (s.length + 2), false⟩) := by
      have hshape : restText (s :: rest2) =
          ' ' :: (('<' :: (s ++ ['>'])) ++ restText rest2) := by
        show ' ' :: (renderArgsChars (s :: rest2) ++ ['\n']) = _
        rw [renderText_shape]
      rw [hshape]
      have hpre : NextToken ⟨' ' :: (('<' :: (s ++ ['>'])) ++ restText rest2), 1, col, false⟩ =
          scanSimpleArgument ⟨('<' :: (s ++ ['>'])) ++ restText rest2, 1, col + 1, false⟩ := rfl
      rw [hpre, scanSimpleArgument_rendered s rest2 (col + 1)
        (fun c hc => hs s (List.mem_cons_self s rest2) c hc)]
    have hadv : advanceP ⟨⟨restText (s :: rest2), 1, col, false⟩, t0⟩ =
        .ok ⟨⟨restText rest2, 1, col + 1 + (s.length + 2), false⟩,
             ⟨.argument, String.mk ('<' :: (s ++ ['>'])), 1, col + 1⟩⟩ := by
      simp [advanceP, advanceTok_noncomment _ _ _ hnt (by exact nofun)]
    obtain ⟨colN, hih⟩ := ih f1 (col + 1 + (s.length + 2))
      ⟨.argument, String.mk ('<' :: (s ++ ['>'])), 1, col + 1⟩
      (by simp only [List.length_cons] at hf; omega)
      (fun s2 h2 => hs s2 (List.mem_cons_of_mem s h2)) rfl
    refine ⟨colN, ?_⟩
    rw [runP_succ]
    simp [runPStep, ht, hadv, hih]

theorem dir_rendered (rest : List (List Char)) (f col : Nat) (t0 : Token)
    (hf : rest.length + 4 ≤ f)
    (hs : ∀ s ∈ rest, ∀ c ∈ s, IsArgumentChar c = true ∧ c ≠ '\\')
    (ht : t0.type = .argument) :
    runP f (.dir ⟨⟨restText rest, 1, col, false⟩, t0⟩) =
      .ok (.mk (t0.value :: rest.map (fun s => String.mk ('<' :: (s ++ ['>'])))) [],
           ⟨⟨[], 2, 1, false⟩, ⟨.eof, "", 2, 1⟩⟩) := by
  obtain ⟨f1, rfl⟩ : ∃ f1, f = f1 + 1 + 1 + 1 := ⟨f - 3, by omega⟩
  obtain ⟨colN, hargs⟩ := argsLoop_rendered rest (f1 + 1 + 1) col t0 (by omega) hs ht
  have hadv : advanceP ⟨⟨[], 2, 1, false⟩, ⟨.newline, "", 1, colN⟩⟩ =
      .ok ⟨⟨[], 2, 1, false⟩, ⟨.eof, "", 2, 1⟩⟩ := rfl
  have hskip2 : runP (f1 + 1) (.skipNl ⟨⟨[], 2, 1, false⟩, ⟨.eof, "", 2, 1⟩⟩) =
      .ok ⟨⟨[], 2, 1, false⟩, ⟨.eof, "", 2, 1⟩⟩ := by
    rw [runP_succ]
    simp [runPStep]
  have hskip : runP (f1 + 1 + 1) (.skipNl ⟨⟨[], 2, 1, false⟩, ⟨.newline, "", 1, colN⟩⟩) =
      .ok ⟨⟨[], 2, 1, false⟩, ⟨.eof, "", 2, 1⟩⟩ := by
    rw [runP_succ]
    simp [runPStep, hadv, hskip2]
  rw [runP_succ]
  simp [runPStep, hargs, hskip]

theorem dirs_rendered (rest : List (List Char)) (f col : Nat) (t0 : Token)
    (hf : rest.length + 6 ≤ f)
    (hs : ∀ s ∈ rest, ∀ c ∈ s, IsArgumentChar c = true ∧ c ≠ '\\')
    (ht : t0.type = .argument) :
    runP f (.dirs false ⟨⟨restText rest, 1, col, false⟩, t0⟩) =
      .ok ([.mk (t0.value :: rest.map (fun s => String.mk ('<' :: (s ++ ['>'])))) []],
           ⟨⟨[], 2, 1, false⟩, ⟨.eof, "", 2, 1⟩⟩) := by
  obtain ⟨f1, rfl⟩ : ∃ f1, f = f1 + 1 + 1 := ⟨f - 2, by omega⟩
  have hdir := dir_rendered rest (f1 + 1) col t0 (by omega) hs ht
  have hstop : runP (f1 + 1) (.dirs false ⟨⟨[], 2, 1, false⟩, ⟨.eof, "", 2, 1⟩⟩) =
      .ok ([], ⟨⟨[], 2, 1, false⟩, ⟨.eof, "", 2, 1⟩⟩) := by
    rw [runP_succ]
    simp [runPStep]
  rw [runP_succ]
  simp [runPStep, ht, hdir, hstop]

theorem braceArg_render : render ⟨[.mk ["a\x7d"] []]⟩ = "<a\x7d>\n" := by decide

theorem braceArg_reparse : ParseWith "<a\x7d>\n".data 6 = .err (.unexpectedRightBrace 1) := by
  decide

/-- C8 (amended): for a flat single-directive tree whose arguments are made
of plain argument characters (no backslash), re-parsing the canonical
rendering succeeds and yields the same directive with every argument wrapped
in one more pair of angle brackets; the second rendering therefore differs
from the first, so the render/parse round trip is not idempotent on any such
tree.  In general a rendering need not re-parse at all: the directive whose
single argument is "a\x7d" renders as "<a\x7d>\n", and re-parsing that
fails with the unexpected-right-brace error. -/
theorem claim_C8_renderReparse :
    (∀ (args : List (List Char)), args ≠ [] →
      (∀ s ∈ args, ∀ c ∈ s, IsArgumentChar c = true ∧ c ≠ '\\') →
      ParseString (render ⟨[.mk (args.map String.mk) []]⟩) =
        .ok ⟨[.mk (args.map (fun s => String.mk ('<' :: (s ++ ['>'])))) []]⟩ ∧
      render ⟨[.mk (args.map (fun s => String.mk ('<' :: (s ++ ['>'])))) []]⟩ ≠
        render ⟨[.mk (args.map String.mk) []]⟩) ∧
    ParseString (render ⟨[.mk ["a\x7d"] []]⟩) = .err (.unexpectedRightBrace 1) := by
  constructor
  · intro args hne hs
    obtain ⟨s1, rest, rfl⟩ : ∃ s1 rest, args = s1 :: rest := by
      cases args with
      | nil => exact absurd rfl hne
      | cons a b => exact ⟨a, b, rfl⟩
    constructor
    · show Parse (render ⟨[.mk ((s1 :: rest).map String.mk) []]⟩).data = _
      rw [render_flat_data (s1 :: rest), renderText_shape s1 rest]
      have hinit : advanceTok (initLexer (('<' :: (s1 ++ ['>'])) ++ restText rest)) =
          .ok (⟨.argument, String.mk ('<' :: (s1 ++ ['>'])), 1, 1⟩,
               ⟨restText rest, 1, 1 + (s1.length + 2), false⟩) := by
        refine advanceTok_noncomment _ _ _ ?_ (by exact nofun)
        have hpre : NextToken (initLexer (('<' :: (s1 ++ ['>'])) ++ restText rest)) =
            scanSimpleArgument ⟨('<' :: (s1 ++ ['>'])) ++ restText rest, 1, 1, false⟩ := rfl
        rw [hpre, scanSimpleArgument_rendered s1 rest 1
          (fun c hc => hs s1 (List.mem_cons_self s1 rest) c hc)]
      have hfu : rest.length + 6 ≤
          4 * ((('<' :: (s1 ++ ['>'])) ++ restText rest).length) + 8 := by
        have h := restText_len_ge rest
        simp only [List.length_append, List.length_cons]
        omega
      have hdirs := dirs_rendered rest (rest.length + 6)
        (1 + (s1.length + 2)) ⟨.argument, String.mk ('<' :: (s1 ++ ['>'])), 1, 1⟩
        (by omega) (fun s2 h2 => hs s2 (List.mem_cons_of_mem s1 h2)) rfl
      have hPW : ParseWith (('<' :: (s1 ++ ['>'])) ++ restText rest) (rest.length + 6) =
          .ok ⟨[.mk ((s1 :: rest).map (fun s => String.mk ('<' :: (s ++ ['>'])))) []]⟩ := by
        unfold ParseWith
        simp only [hinit, parseDirectives, hdirs, List.map_cons]
      exact Parse_eval (rest.length + 6) hPW (by exact nofun) hfu
    · intro heq
      have hlen := congrArg (fun t => t.data.length) heq
      have hmap : (s1 :: rest).map (fun s => String.mk ('<' :: (s ++ ['>']))) =
          ((s1 :: rest).map (fun s => '<' :: (s ++ ['>']))).map String.mk := by
        simp [List.map_map, Function.comp]
      rw [hmap] at hlen
      simp only [render_flat_data ((s1 :: rest).map (fun s => '<' :: (s ++ ['>']))),
        render_flat_data (s1 :: rest)] at hlen
      have hw := renderArgsChars_wrap_len (s1 :: rest)
      simp only [List.length_append, List.length_cons, List.length_nil] at hlen hw
      omega
  · show Parse (render ⟨[.mk ["a\x7d"] []]⟩).data = _
    rw [braceArg_render]
    exact Parse_eval 6 braceArg_reparse (by exact nofun) (by decide)

/-- C8 witness: the two-argument directive `a b` re-parses from its
rendering "<a> <b>\n" as the directive with arguments "<a>" and "<b>",
whose rendering differs. -/
theorem claim_C8_witness :
    (ParseString (render ⟨[.mk ([['a'], ['b']].map String.mk) []]⟩) =
      .ok ⟨[.mk ([['a'], ['b']].map (fun s => String.mk ('<' :: (s ++ ['>'])))) []]⟩ ∧
     render ⟨[.mk ([['a'], ['b']].map (fun s => String.mk ('<' :: (s ++ ['>'])))) []]⟩ ≠
      render ⟨[.mk ([['a'], ['b']].map String.mk) []]⟩) :=
  claim_C8_renderReparse.1 [['a'], ['b']] (by decide) (by decide)

/-! ## Claim C5: noncharacter code points are rejected

`cleanTo a b` says the scan went from `a` to `b` consuming only
non-forbidden characters. -/

def cleanTo (a b : List Char) : Prop :=
  ∃ pre, a = pre ++ b ∧ ∀ c ∈ pre, IsForbidden c = false

theorem cleanTo_refl (a : List Char) : cleanTo a a :=
  ⟨[], rfl, by simp⟩

theorem cleanTo_cons {a b : List Char} (c : Char) (hc : IsForbidden c = false)
    (hab : cleanTo a b) : cleanTo (c :: a) b := by
  obtain ⟨pre, rfl, hpre⟩ := hab
  refine ⟨c :: pre, rfl, ?_⟩
  intro x hx
  rcases List.mem_cons.mp hx with rfl | hx2
  · exact hc
  · exact hpre x hx2

theorem cleanTo_trans {a b c : List Char} (h1 : cleanTo a b) (h2 : cleanTo b c) :
    cleanTo a c := by
  obtain ⟨p1, rfl, hp1⟩ := h1
  obtain ⟨p2, rfl, hp2⟩ := h2
  refine ⟨p1 ++ p2, by simp, ?_⟩
  intro x hx
  rcases List.mem_append.mp hx with hx2 | hx2
  · exact hp1 x hx2
  · exact hp2 x hx2

theorem land_FFFE_mod (n : Nat) (h : n &&& 65534 = 65534) :
    n % 65536 = 65534 ∨ n % 65536 = 65535 := by
  have h2 : n / 2 &&& 32767 = 32767 := by
    have hd : (n &&& 65534) / 2 = n / 2 &&& (65534 / 2) := Nat.and_div_two
    rw [h] at hd
    norm_num at hd
    exact hd.symm
  have h3 : n / 2 % 32768 = 32767 := by
    have hm := Nat.and_pow_two_sub_one_eq_mod (n / 2) 15
    norm_num at hm
    rw [← hm]
    exact h2
  omega

/-- Every noncharacter code point is a forbidden character: it is none of
`White_Space`, `Cf`, `Co` (so the early allow-tests of `IsForbidden` do not
fire), and the dedicated noncharacter tests catch it. -/
theorem isNonCharacter_forbidden (c : Char) (h : isNonCharacter c = true) :
    IsForbidden c = true := by
  have hb : (decide (64976 ≤ c.toNat) && decide (c.toNat ≤ 65007)) = true ∨
      (c.toNat &&& 65534 == 65534) = true := by
    simpa only [isNonCharacter, Bool.or_eq_true] using h
  have hn : (64976 ≤ c.toNat ∧ c.toNat ≤ 65007) ∨
      (c.toNat % 65536 = 65534 ∨ c.toNat % 65536 = 65535) := by
    rcases hb with hb | hb
    · simp only [Bool.and_eq_true, decide_eq_true_eq] at hb
      exact Or.inl hb
    · simp only [beq_iff_eq] at hb
      exact Or.inr (land_FFFE_mod _ hb)
  have hws : unicodeWhiteSpace c = false := by
    rw [← Bool.not_eq_true]
    intro hw
    simp only [unicodeWhiteSpace, Bool.or_eq_true, Bool.and_eq_true, beq_iff_eq,
      decide_eq_true_eq] at hw
    omega
  have hcf : unicodeCf c = false := by
    rw [← Bool.not_eq_true]
    intro hw
    simp only [unicodeCf, Bool.or_eq_true, Bool.and_eq_true, beq_iff_eq,
      decide_eq_true_eq] at hw
    omega
  have hco : unicodeCo c = false := by
    rw [← Bool.not_eq_true]
    intro hw
    simp only [unicodeCo, Bool.or_eq_true, Bool.and_eq_true, beq_iff_eq,
      decide_eq_true_eq] at hw
    omega
  by_cases hcc : unicodeCc c = true
  · simp [IsForbidden, hws, hcf, hcc]
  · by_cases hcs : unicodeCs c = true
    · simp [IsForbidden, hws, hcf, hcc, hcs]
    · by_cases h1 : (decide (64976 ≤ c.toNat) && decide (c.toNat ≤ 65007)) = true
      · simp [IsForbidden, hws, hcf, hcc, hcs, hco, h1]
      · rcases hb with hb | hb
        · exact absurd hb h1
        · simp [IsForbidden, hws, hcf, hcc, hcs, hco, h1, hb]

theorem whitespace_not_forbidden (c : Char) (h : IsWhitespace c = true) :
    IsForbidden c = false := by
  simp only [IsWhitespace, Bool.and_eq_true] at h
  simp [IsForbidden, h.2]

theorem terminator_not_forbidden (c : Char) (h : IsLineTerminator c = true) :
    IsForbidden c = false := by
  have hws : unicodeWhiteSpace c = true := by
    simp only [IsLineTerminator, Bool.or_eq_true, beq_iff_eq] at h
    simp only [unicodeWhiteSpace, Bool.or_eq_true, Bool.and_eq_true, beq_iff_eq,
      decide_eq_true_eq]
    omega
  simp [IsForbidden, hws]

theorem argChar_not_forbidden (c : Char) (h : IsArgumentChar c = true) :
    IsForbidden c = false := by
  simp only [IsArgumentChar, Bool.not_eq_eq_eq_not, Bool.not_true,
    Bool.or_eq_false_iff] at h
  exact h.2

theorem skipWS_clean : ∀ (cs : List Char) (col : Nat), cleanTo cs (skipWS cs col).1 := by
  intro cs
  induction cs with
  | nil => intro col; simp [skipWS]; exact cleanTo_refl []
  | cons c rest ih =>
    intro col
    rw [skipWS]
    by_cases hw : IsWhitespace c
    · rw [if_pos hw]
      exact cleanTo_cons c (whitespace_not_forbidden c hw) (ih (col + 1))
    · rw [if_neg hw]
      exact cleanTo_refl _

theorem skipBom_clean (cs : List Char) : cleanTo cs (skipBom cs) := by
  cases cs with
  | nil => exact cleanTo_refl _
  | cons c rest =>
    rw [skipBom]
    by_cases hb : c = '\uFEFF'
    · rw [if_pos hb]
      subst hb
      exact cleanTo_cons _ (by decide) (cleanTo_refl _)
    · rw [if_neg hb]
      exact cleanTo_refl _

theorem scanNewline_clean (l : Lexer) (c : Char) (rest : List Char)
    (hrem : l.rem = c :: rest) (hc : IsLineTerminator c = true) :
    cleanTo l.rem (scanNewline l).2.rem ∧ ((scanNewline l).1).type = .newline := by
  obtain ⟨rem0, line, col, st⟩ := l
  simp only at hrem
  subst hrem
  rcases rest with _ | ⟨c2, rest2⟩
  · by_cases hcr : c = '\r'
    · subst hcr
      constructor
      · simp [scanNewline]
        exact cleanTo_cons _ (by decide) (cleanTo_refl _)
      · simp [scanNewline]
    · constructor
      · simp [scanNewline, hcr]
        exact cleanTo_cons _ (terminator_not_forbidden c hc) (cleanTo_refl _)
      · simp [scanNewline, hcr]
  · by_cases hcr : c = '\r'
    · subst hcr
      by_cases hc2 : c2 = '\n'
      · subst hc2
        constructor
        · simp [scanNewline]
          exact cleanTo_cons _ (by decide) (cleanTo_cons _ (by decide) (cleanTo_refl _))
        · simp [scanNewline]
      · constructor
        · simp [scanNewline, hc2]
          exact cleanTo_cons _ (by decide) (cleanTo_refl _)
        · simp [scanNewline, hc2]
    · constructor
      · simp [scanNewline, hcr]
        exact cleanTo_cons _ (terminator_not_forbidden c hc) (cleanTo_refl _)
      · simp [scanNewline, hcr]


theorem scanCommentAux_clean : ∀ (n : Nat) (cs : List Char), cs.length ≤ n →
    ∀ (line col : Nat) (acc v : String) (rem : List Char) (col2 : Nat),
    scanCommentAux line cs col acc = .ok (v, rem, col2) → cleanTo cs rem := by
  intro n
  induction n with
  | zero =>
    intro cs hcs line col acc v rem col2 h
    obtain rfl := List.length_eq_zero.mp (Nat.le_zero.mp hcs)
    rw [scanCommentAux] at h
    simp only [Except.ok.injEq, Prod.mk.injEq] at h
    obtain ⟨-, h2, -⟩ := h
    subst h2
    exact cleanTo_refl _
  | succ n ih =>
    intro cs hcs line col acc v rem col2 h
    cases cs with
    | nil =>
      rw [scanCommentAux] at h
      simp only [Except.ok.injEq, Prod.mk.injEq] at h
      obtain ⟨-, h2, -⟩ := h
      subst h2
      exact cleanTo_refl _
    | cons c rest =>
      simp only [List.length_cons] at hcs
      rw [scanCommentAux] at h
      by_cases hlt : IsLineTerminator c = true
      · rw [if_pos hlt] at h
        simp only [Except.ok.injEq, Prod.mk.injEq] at h
        obtain ⟨-, h2, -⟩ := h
        subst h2
        exact cleanTo_refl _
      · rw [if_neg hlt] at h
        by_cases hfb : IsForbidden c = true
        · rw [if_pos hfb] at h
          exact absurd h nofun
        · rw [if_neg hfb] at h
          exact cleanTo_cons c (by simpa using hfb)
            (ih rest (by omega) line (col + 1) (acc.push c) v rem col2 h)

theorem singleQuotedAux_clean : ∀ (n : Nat) (cs : List Char), cs.length ≤ n →
    ∀ (line col : Nat) (buf v : String) (rem : List Char) (line2 col2 : Nat),
    singleQuotedAux cs line col buf = .ok (v, rem, line2, col2) → cleanTo cs rem := by
  intro n
  induction n with
  | zero =>
    intro cs hcs line col buf v rem line2 col2 h
    obtain rfl := List.length_eq_zero.mp (Nat.le_zero.mp hcs)
    rw [singleQuotedAux.eq_1] at h
    simp at h
  | succ n ih =>
    intro cs hcs line col buf v rem line2 col2 h
    cases cs with
    | nil => rw [singleQuotedAux.eq_1] at h; simp at h
    | cons c rest =>
      simp only [List.length_cons] at hcs
      rcases rest with _ | ⟨c2, rest2⟩
      · rw [singleQuotedAux.eq_2] at h
        by_cases hq : c = '"'
        · rw [if_pos hq] at h
          simp only [Except.ok.injEq, Prod.mk.injEq] at h
          obtain ⟨-, h2, -, -⟩ := h
          subst h2
          subst hq
          exact cleanTo_cons _ (by decide) (cleanTo_refl _)
        · rw [if_neg hq] at h
          by_cases hbs : c = '\\'
          · rw [if_pos hbs] at h
            simp only [peekChar] at h
            repeat' split at h
            all_goals exact absurd h nofun
          · rw [if_neg hbs] at h
            by_cases hlt : IsLineTerminator c = true
            · rw [if_pos hlt] at h
              exact absurd h nofun
            · rw [if_neg hlt] at h
              by_cases hfb : IsForbidden c = true
              · rw [if_pos hfb] at h
                exact absurd h nofun
              · rw [if_neg hfb] at h
                exact cleanTo_cons c (by simpa using hfb)
                  (ih [] (by omega) _ _ _ _ _ _ _ h)
      · by_cases h35 : c2 = '\r' ∧ ∃ rest3, rest2 = '\n' :: rest3
        · obtain ⟨rfl, rest3, rfl⟩ := h35
          rw [singleQuotedAux.eq_3] at h
          by_cases hq : c = '"'
          · rw [if_pos hq] at h
            simp only [Except.ok.injEq, Prod.mk.injEq] at h
            obtain ⟨-, h2, -, -⟩ := h
            subst h2
            subst hq
            exact cleanTo_cons _ (by decide) (cleanTo_refl _)
          · rw [if_neg hq] at h
            by_cases hbs : c = '\\'
            · rw [if_pos hbs] at h
              simp only [peekChar] at h
              rw [if_pos (by decide : IsLineTerminator '\r' = true)] at h
              subst hbs
              refine cleanTo_cons _ (by decide) (cleanTo_cons _ (by decide)
                (cleanTo_cons _ (by decide) (ih rest3 (by simp at hcs; omega) _ _ _ _ _ _ _ h)))
            · rw [if_neg hbs] at h
              by_cases hlt : IsLineTerminator c = true
              · rw [if_pos hlt] at h
                exact absurd h nofun
              · rw [if_neg hlt] at h
                by_cases hfb : IsForbidden c = true
                · rw [if_pos hfb] at h
                  exact absurd h nofun
                · rw [if_neg hfb] at h
                  exact cleanTo_cons c (by simpa using hfb)
                    (ih _ (by simp at hcs ⊢; omega) _ _ _ _ _ _ _ h)
        · rw [singleQuotedAux.eq_4 _ _ _ _ _ _ (fun r3 hr hn => h35 ⟨hr, r3, hn⟩)] at h
          by_cases hq : c = '"'
          · rw [if_pos hq] at h
            simp only [Except.ok.injEq, Prod.mk.injEq] at h
            obtain ⟨-, h2, -, -⟩ := h
            subst h2
            subst hq
            exact cleanTo_cons _ (by decide) (cleanTo_refl _)
          · rw [if_neg hq] at h
            by_cases hbs : c = '\\'
            · rw [if_pos hbs] at h
              simp only [peekChar] at h
              by_cases hlt2 : IsLineTerminator c2 = true
              · rw [if_pos hlt2] at h
                subst hbs
                refine cleanTo_cons _ (by decide) (cleanTo_cons _
                  (terminator_not_forbidden c2 hlt2)
                  (ih rest2 (by simp at hcs ⊢; omega) _ _ _ _ _ _ _ h))
              · rw [if_neg hlt2] at h
                by_cases hesc : (!IsWhitespace c2 && !IsLineTerminator c2 && !IsForbidden c2) = true
                · rw [if_pos hesc] at h
                  have hfb2 : IsForbidden c2 = false := by
                    simp only [Bool.and_eq_true, Bool.not_eq_true'] at hesc
                    exact hesc.2
                  subst hbs
                  refine cleanTo_cons _ (by decide) (cleanTo_cons _ hfb2
                    (ih rest2 (by simp at hcs ⊢; omega) _ _ _ _ _ _ _ h))
                · rw [if_neg hesc] at h
                  exact absurd h nofun
            · rw [if_neg hbs] at h
              by_cases hlt : IsLineTerminator c = true
              · rw [if_pos hlt] at h
                exact absurd h nofun
              · rw [if_neg hlt] at h
                by_cases hfb : IsForbidden c = true
                · rw [if_pos hfb] at h
                  exact absurd h nofun
                · rw [if_neg hfb] at h
                  exact cleanTo_cons c (by simpa using hfb)
                    (ih _ (by simp at hcs ⊢; omega) _ _ _ _ _ _ _ h)

theorem tripleQuotedAux_clean : ∀ (n : Nat) (cs : List Char), cs.length ≤ n →
    ∀ (line col : Nat) (buf v : String) (rem : List Char) (line2 col2 : Nat),
    tripleQuotedAux cs line col buf = .ok (v, rem, line2, col2) → cleanTo cs rem := by
  intro n
  induction n with
  | zero =>
    intro cs hcs line col buf v rem line2 col2 h
    obtain rfl := List.length_eq_zero.mp (Nat.le_zero.mp hcs)
    rw [tripleQuotedAux.eq_2] at h
    simp at h
  | succ n ih =>
    intro cs hcs line col buf v rem line2 col2 h
    cases cs with
    | nil => rw [tripleQuotedAux.eq_2] at h; simp at h
    | cons c rest =>
      simp only [List.length_cons] at hcs
      by_cases hcl : c = '"' ∧ ∃ rest1, rest = '"' :: '"' :: rest1
      · obtain ⟨rfl, rest1, rfl⟩ := hcl
        rw [tripleQuotedAux.eq_1] at h
        simp only [Except.ok.injEq, Prod.mk.injEq] at h
        obtain ⟨-, h2, -, -⟩ := h
        subst h2
        exact cleanTo_cons _ (by decide) (cleanTo_cons _ (by decide)
          (cleanTo_cons _ (by decide) (cleanTo_refl _)))
      · rcases rest with _ | ⟨c2, rest2⟩
        · rw [tripleQuotedAux.eq_3 _ _ _ _
            (by intro r1 hc hn; exact absurd hn (by simp))] at h
          by_cases hbs : c = '\\'
          · rw [if_pos hbs] at h
            simp only [peekChar] at h
            split at h
            · exact absurd h nofun
            · exact absurd h nofun
          · rw [if_neg hbs] at h
            by_cases hfb : IsForbidden c = true
            · rw [if_pos hfb] at h
              exact absurd h nofun
            · rw [if_neg hfb] at h
              exact cleanTo_cons c (by simpa using hfb)
                (ih [] (by omega) _ _ _ _ _ _ _ h)
        · rw [tripleQuotedAux.eq_4 _ _ _ _ _ _
            (by intro r1 hc hn; exact hcl ⟨hc, by
              simp only [List.cons.injEq] at hn
              exact ⟨r1, by simp [hn.1, hn.2]⟩⟩)] at h
          by_cases hbs : c = '\\'
          · rw [if_pos hbs] at h
            simp only [peekChar] at h
            by_cases hesc : (!IsWhitespace c2 && !IsLineTerminator c2 && !IsForbidden c2) = true
            · rw [if_pos hesc] at h
              have hfb2 : IsForbidden c2 = false := by
                simp only [Bool.and_eq_true, Bool.not_eq_true'] at hesc
                exact hesc.2
              subst hbs
              refine cleanTo_cons _ (by decide) (cleanTo_cons _ hfb2
                (ih rest2 (by simp at hcs ⊢; omega) _ _ _ _ _ _ _ h))
            · rw [if_neg hesc] at h
              exact absurd h nofun
          · rw [if_neg hbs] at h
            by_cases hfb : IsForbidden c = true
            · rw [if_pos hfb] at h
              exact absurd h nofun
            · rw [if_neg hfb] at h
              exact cleanTo_cons c (by simpa using hfb)
                (ih _ (by simp at hcs ⊢; omega) _ _ _ _ _ _ _ h)

/-- The unread remainder of a `scanSimpleArgument` outcome, when it is not a
failure. -/
def scanRem : SimpleScan → Option (List Char)
  | .tok _ rem _ => some rem
  | .cont rem _ _ => some rem
  | .fail _ => none

theorem scanSimpleAux_clean : ∀ (n : Nat) (cs : List Char), cs.length ≤ n →
    ∀ (line col : Nat) (buf : String) (rem : List Char),
    scanRem (scanSimpleAux line cs col buf) = some rem → cleanTo cs rem := by
  intro n
  induction n with
  | zero =>
    intro cs hcs line col buf rem h
    obtain rfl := List.length_eq_zero.mp (Nat.le_zero.mp hcs)
    rw [scanSimpleAux.eq_1] at h
    simp only [scanRem, Option.some.injEq] at h
    subst h
    exact cleanTo_refl _
  | succ n ih =>
    intro cs hcs line col buf rem h
    cases cs with
    | nil =>
      rw [scanSimpleAux.eq_1] at h
      simp only [scanRem, Option.some.injEq] at h
      subst h
      exact cleanTo_refl _
    | cons c rest =>
      simp only [List.length_cons] at hcs
      rcases rest with _ | ⟨c2, rest2⟩
      · rw [scanSimpleAux.eq_2] at h
        by_cases hbs : c = '\\'
        · rw [if_pos hbs] at h
          simp only [peekChar] at h
          repeat' split at h
          all_goals simp [scanRem] at h
        · rw [if_neg hbs] at h
          by_cases hna : (!IsArgumentChar c) = true
          · rw [if_pos hna] at h
            simp only [scanRem, Option.some.injEq] at h
            subst h
            exact cleanTo_refl _
          · rw [if_neg hna] at h
            exact cleanTo_cons c (argChar_not_forbidden c (by simpa using hna))
              (ih [] (by omega) _ _ _ _ h)
      · by_cases h35 : c2 = '\r' ∧ ∃ rest3, rest2 = '\n' :: rest3
        · obtain ⟨rfl, rest3, rfl⟩ := h35
          rw [scanSimpleAux.eq_3] at h
          by_cases hbs : c = '\\'
          · rw [if_pos hbs] at h
            simp only [peekChar] at h
            rw [if_pos (by decide : IsLineTerminator '\r' = true)] at h
            by_cases hb0 : buf.length > 0
            · rw [if_pos hb0] at h
              simp [scanRem] at h
            · rw [if_neg hb0] at h
              simp only [scanRem, Option.some.injEq] at h
              subst h
              subst hbs
              refine cleanTo_cons _ (by decide) (cleanTo_cons _ (by decide)
                (cleanTo_cons _ (by decide) (skipWS_clean rest3 1)))
          · rw [if_neg hbs] at h
            by_cases hna : (!IsArgumentChar c) = true
            · rw [if_pos hna] at h
              simp only [scanRem, Option.some.injEq] at h
              subst h
              exact cleanTo_refl _
            · rw [if_neg hna] at h
              exact cleanTo_cons c (argChar_not_forbidden c (by simpa using hna))
                (ih _ (by simp at hcs ⊢; omega) _ _ _ _ h)
        · rw [scanSimpleAux.eq_4 _ _ _ _ _ _ (fun r3 hr hn => h35 ⟨hr, r3, hn⟩)] at h
          by_cases hbs : c = '\\'
          · rw [if_pos hbs] at h
            simp only [peekChar] at h
            by_cases hlt2 : IsLineTerminator c2 = true
            · rw [if_pos hlt2] at h
              by_cases hb0 : buf.length > 0
              · rw [if_pos hb0] at h
                simp [scanRem] at h
              · rw [if_neg hb0] at h
                simp only [scanRem, Option.some.injEq] at h
                subst h
                subst hbs
                refine cleanTo_cons _ (by decide) (cleanTo_cons _
                  (terminator_not_forbidden c2 hlt2) (skipWS_clean rest2 1))
            · rw [if_neg hlt2] at h
              by_cases hesc : (!IsWhitespace c2 && !IsLineTerminator c2 && !IsForbidden c2) = true
              · rw [if_pos hesc] at h
                have hfb2 : IsForbidden c2 = false := by
                  simp only [Bool.and_eq_true, Bool.not_eq_true'] at hesc
                  exact hesc.2
                subst hbs
                refine cleanTo_cons _ (by decide) (cleanTo_cons _ hfb2
                  (ih rest2 (by simp at hcs ⊢; omega) _ _ _ _ h))
              · rw [if_neg hesc] at h
                simp [scanRem] at h
          · rw [if_neg hbs] at h
            by_cases hna : (!IsArgumentChar c) = true
            · rw [if_pos hna] at h
              simp only [scanRem, Option.some.injEq] at h
              subst h
              exact cleanTo_refl _
            · rw [if_neg hna] at h
              exact cleanTo_cons c (argChar_not_forbidden c (by simpa using hna))
                (ih _ (by simp at hcs ⊢; omega) _ _ _ _ h)


theorem scanComment_clean (l : Lexer) (c : Char) (rest : List Char) (t : Token) (l2 : Lexer)
    (hrem : l.rem = c :: rest) (hc : IsForbidden c = false)
    (h : scanComment l = .ok (t, l2)) :
    cleanTo l.rem l2.rem ∧ t.type = .comment := by
  obtain ⟨rem0, line, col, st⟩ := l
  simp only at hrem
  subst hrem
  cases haux : scanCommentAux line rest (col + 1) "#" with
  | error e => simp [scanComment, haux] at h
  | ok v3 =>
    obtain ⟨v, rem2, col2⟩ := v3
    simp [scanComment, haux] at h
    obtain ⟨h1, h2⟩ := h
    constructor
    · rw [← h2]
      exact cleanTo_cons c hc
        (scanCommentAux_clean rest.length rest le_rfl _ _ _ _ _ _ haux)
    · rw [← h1]

theorem scanQuotedArgument_clean (l : Lexer) (rest0 : List Char) (t : Token) (l2 : Lexer)
    (hrem : l.rem = '"' :: rest0)
    (h : scanQuotedArgument l = .ok (t, l2)) :
    cleanTo l.rem l2.rem ∧ t.type = .argument := by
  obtain ⟨rem0, line, col, st⟩ := l
  simp only at hrem
  subst hrem
  rcases rest0 with _ | ⟨c1, rest1⟩
  · simp [scanQuotedArgument, singleQuotedAux] at h
  · by_cases hq1 : c1 = '"'
    · subst hq1
      rcases rest1 with _ | ⟨c2, rest2⟩
      · simp [scanQuotedArgument] at h
        obtain ⟨h1, h2⟩ := h
        constructor
        · rw [← h2]
          exact cleanTo_cons _ (by decide) (cleanTo_cons _ (by decide) (cleanTo_refl _))
        · rw [← h1]
      · by_cases hq2 : c2 = '"'
        · subst hq2
          cases haux : tripleQuotedAux rest2 line (col + 3) "" with
          | error e => simp [scanQuotedArgument, haux] at h
          | ok v4 =>
            obtain ⟨v, rem2, line2, col2⟩ := v4
            simp [scanQuotedArgument, haux] at h
            obtain ⟨h1, h2⟩ := h
            constructor
            · rw [← h2]
              exact cleanTo_cons _ (by decide) (cleanTo_cons _ (by decide)
                (cleanTo_cons _ (by decide)
                  (tripleQuotedAux_clean rest2.length rest2 le_rfl _ _ _ _ _ _ _ haux)))
            · rw [← h1]
        · simp [scanQuotedArgument, hq2] at h
          obtain ⟨h1, h2⟩ := h
          constructor
          · rw [← h2]
            exact cleanTo_cons _ (by decide) (cleanTo_cons _ (by decide) (cleanTo_refl _))
          · rw [← h1]
    · cases haux : singleQuotedAux (c1 :: rest1) line (col + 1) "" with
      | error e => simp [scanQuotedArgument, hq1, haux] at h
      | ok v4 =>
        obtain ⟨v, rem2, line2, col2⟩ := v4
        simp [scanQuotedArgument, hq1, haux] at h
        obtain ⟨h1, h2⟩ := h
        constructor
        · rw [← h2]
          exact cleanTo_cons _ (by decide)
            (singleQuotedAux_clean (c1 :: rest1).length _ le_rfl _ _ _ _ _ _ _ haux)
        · rw [← h1]

theorem scanSimpleArgument_clean (l : Lexer) (t : Token) (l2 : Lexer)
    (h : scanSimpleArgument l = .ok (t, l2)) :
    cleanTo l.rem l2.rem ∧ (t.type = .argument ∨ t.type = .lineContinuation) := by
  obtain ⟨rem0, line, col, st⟩ := l
  unfold scanSimpleArgument at h
  cases haux : scanSimpleAux line rem0 col "" with
  | fail e => rw [haux] at h; simp at h
  | tok v rem2 col2 =>
    rw [haux] at h
    simp only [Except.ok.injEq, Prod.mk.injEq] at h
    obtain ⟨h1, h2⟩ := h
    constructor
    · rw [← h2]
      exact scanSimpleAux_clean rem0.length rem0 le_rfl line col "" rem2 (by rw [haux]; rfl)
    · rw [← h1]
      left
      rfl
  | cont rem2 line2 col2 =>
    rw [haux] at h
    simp only [Except.ok.injEq, Prod.mk.injEq] at h
    obtain ⟨h1, h2⟩ := h
    constructor
    · rw [← h2]
      exact scanSimpleAux_clean rem0.length rem0 le_rfl line col "" rem2 (by rw [haux]; rfl)
    · rw [← h1]
      right
      rfl

theorem nextTokenAt_clean (l : Lexer) (t : Token) (l2 : Lexer)
    (h : nextTokenAt l = .ok (t, l2)) :
    cleanTo l.rem l2.rem ∧ (t.type = .eof → l2.rem = [] ∨ l2.rem = ['\x1A']) := by
  obtain ⟨rem1, line, col1, st⟩ := l
  rcases rem1 with _ | ⟨c, crest⟩
  · simp [nextTokenAt] at h
    obtain ⟨h1, h2⟩ := h
    subst h1; subst h2
    exact ⟨cleanTo_refl _, fun _ => Or.inl rfl⟩
  · by_cases hz : c = '\x1A'
    · subst hz
      rcases crest with _ | ⟨c2, crest2⟩
      · simp [nextTokenAt] at h
        obtain ⟨h1, h2⟩ := h
        subst h1; subst h2
        exact ⟨cleanTo_refl _, fun _ => Or.inr rfl⟩
      · simp [nextTokenAt] at h
    · by_cases hf : IsForbidden c = true
      · simp [nextTokenAt, hz, hf] at h
      · by_cases hlt : IsLineTerminator c = true
        · cases hsn : scanNewline ⟨c :: crest, line, col1, st⟩ with
          | mk tk lx2 =>
            simp [nextTokenAt, hz, hf, hlt, hsn] at h
            obtain ⟨h1, h2⟩ := h
            subst h1; subst h2
            obtain ⟨hcl, hty⟩ := scanNewline_clean ⟨c :: crest, line, col1, st⟩ c crest rfl hlt
            rw [hsn] at hcl hty
            refine ⟨hcl, fun he => ?_⟩
            rw [hty] at he
            exact absurd he nofun
        · by_cases hsh : c = '#'
          · subst hsh
            simp only [nextTokenAt] at h
            simp [hz, hf, hlt] at h
            obtain ⟨hcl, hty⟩ :=
              scanComment_clean ⟨'#' :: crest, line, col1, st⟩ '#' crest t l2 rfl (by decide) h
            refine ⟨hcl, fun he => ?_⟩
            rw [hty] at he
            exact absurd he nofun
          · by_cases hsemi : c = ';'
            · subst hsemi
              simp [nextTokenAt, hz, hf, hlt] at h
              obtain ⟨h1, h2⟩ := h
              subst h1; subst h2
              refine ⟨cleanTo_cons _ (by decide) (cleanTo_refl _), fun he => absurd he nofun⟩
            · by_cases hlb : c = '\x7b'
              · subst hlb
                simp [nextTokenAt, hz, hf, hlt] at h
                obtain ⟨h1, h2⟩ := h
                subst h1; subst h2
                refine ⟨cleanTo_cons _ (by decide) (cleanTo_refl _), fun he => absurd he nofun⟩
              · by_cases hrb : c = '\x7d'
                · subst hrb
                  simp [nextTokenAt, hz, hf, hlt] at h
                  obtain ⟨h1, h2⟩ := h
                  subst h1; subst h2
                  refine ⟨cleanTo_cons _ (by decide) (cleanTo_refl _), fun he => absurd he nofun⟩
                · by_cases hq : c = '"'
                  · subst hq
                    simp [nextTokenAt, hz, hf, hlt] at h
                    obtain ⟨hcl, hty⟩ :=
                      scanQuotedArgument_clean ⟨'"' :: crest, line, col1, st⟩ crest t l2 rfl h
                    refine ⟨hcl, fun he => ?_⟩
                    rw [hty] at he
                    exact absurd he nofun
                  · by_cases hac : IsArgumentChar c = true
                    · simp [nextTokenAt, hz, hf, hlt, hsh, hsemi, hlb, hrb, hq, hac] at h
                      obtain ⟨hcl, hty⟩ :=
                        scanSimpleArgument_clean ⟨c :: crest, line, col1, st⟩ t l2 h
                      refine ⟨hcl, fun he => ?_⟩
                      rcases hty with hty | hty <;> rw [hty] at he <;> exact absurd he nofun
                    · simp [nextTokenAt, hz, hf, hlt, hsh, hsemi, hlb, hrb, hq, hac] at h

theorem nextToken_clean (l0 : Lexer) (t : Token) (l2 : Lexer)
    (h : NextToken l0 = .ok (t, l2)) :
    cleanTo l0.rem l2.rem ∧ (t.type = .eof → l2.rem = [] ∨ l2.rem = ['\x1A']) := by
  obtain ⟨rem0, line, col, st⟩ := l0
  cases st with
  | false =>
    cases hsw : skipWS rem0 col with
    | mk rem1 col1 =>
      have hclean1 : cleanTo rem0 rem1 := by
        have hc := skipWS_clean rem0 col
        rw [hsw] at hc
        exact hc
      have h2 : nextTokenAt ⟨rem1, line, col1, false⟩ = .ok (t, l2) := by
        simpa [NextToken, hsw] using h
      obtain ⟨hc1, hc2⟩ := nextTokenAt_clean _ _ _ h2
      exact ⟨cleanTo_trans hclean1 hc1, hc2⟩
  | true =>
    cases hsw : skipWS (skipBom rem0) col with
    | mk rem1 col1 =>
      have hclean1 : cleanTo rem0 rem1 := by
        have hc := skipWS_clean (skipBom rem0) col
        rw [hsw] at hc
        exact cleanTo_trans (skipBom_clean rem0) hc
      have h2 : nextTokenAt ⟨rem1, line, col1, false⟩ = .ok (t, l2) := by
        simpa [NextToken, hsw] using h
      obtain ⟨hc1, hc2⟩ := nextTokenAt_clean _ _ _ h2
      exact ⟨cleanTo_trans hclean1 hc1, hc2⟩

theorem advanceTokAux_clean : ∀ (n : Nat) (l : Lexer) (t : Token) (l2 : Lexer),
    advanceTokAux n l = .ok (t, l2) →
    cleanTo l.rem l2.rem ∧ (t.type = .eof → l2.rem = [] ∨ l2.rem = ['\x1A']) := by
  intro n
  induction n with
  | zero => intro l t l2 h; exact nextToken_clean l t l2 h
  | succ n ih =>
    intro l t l2 h
    simp only [advanceTokAux] at h
    cases hnt : NextToken l with
    | error e => rw [hnt] at h; exact absurd h nofun
    | ok v =>
      obtain ⟨t1, lmid⟩ := v
      simp only [hnt] at h
      by_cases hc : t1.type = .comment
      · rw [if_pos hc] at h
        obtain ⟨ha, hb⟩ := ih lmid t l2 h
        obtain ⟨hc1, -⟩ := nextToken_clean l t1 lmid hnt
        exact ⟨cleanTo_trans hc1 ha, hb⟩
      · rw [if_neg hc] at h
        simp only [Except.ok.injEq, Prod.mk.injEq] at h
        obtain ⟨rfl, rfl⟩ := h
        exact nextToken_clean _ _ _ hnt

theorem advanceTok_clean (l : Lexer) (t : Token) (l2 : Lexer)
    (h : advanceTok l = .ok (t, l2)) :
    cleanTo l.rem l2.rem ∧ (t.type = .eof → l2.rem = [] ∨ l2.rem = ['\x1A']) :=
  advanceTokAux_clean l.rem.length l t l2 h

theorem advanceP_clean (p p' : PState) (h : advanceP p = .ok p') :
    cleanTo p.lx.rem p'.lx.rem ∧
    (p'.current.type = .eof → p'.lx.rem = [] ∨ p'.lx.rem = ['\x1A']) := by
  simp only [advanceP] at h
  cases hat : advanceTok p.lx with
  | error e => rw [hat] at h; exact absurd h nofun
  | ok v =>
    obtain ⟨t, l⟩ := v
    simp only [hat, Except.ok.injEq] at h
    subst h
    exact advanceTok_clean p.lx t l hat


/-- The parser-state invariant for claim C5: when the pre-fetched token is
EOF, the unread input is empty or the single trailing Control-Z. -/
def StInv (p : PState) : Prop :=
  p.current.type = .eof → p.lx.rem = [] ∨ p.lx.rem = ['\x1A']

theorem runP_clean : ∀ (f : Nat),
    (∀ (b : Bool) (p : PState) (q : List Directive × PState),
      StInv p → runP f (.dirs b p) = .ok q →
      cleanTo p.lx.rem q.2.lx.rem ∧ StInv q.2)
  ∧ (∀ (p : PState) (q : Directive × PState),
      StInv p → runP f (.dir p) = .ok q →
      cleanTo p.lx.rem q.2.lx.rem ∧ StInv q.2)
  ∧ (∀ (p : PState) (q : List String × PState),
      StInv p → runP f (.args p) = .ok q →
      cleanTo p.lx.rem q.2.lx.rem ∧ StInv q.2)
  ∧ (∀ (p q : PState), StInv p → runP f (.skipNl p) = .ok q →
      cleanTo p.lx.rem q.lx.rem ∧ StInv q)
  ∧ (∀ (p : PState) (q : List Directive × PState),
      StInv p → runP f (.block p) = .ok q →
      cleanTo p.lx.rem q.2.lx.rem ∧ StInv q.2) := by
  intro f
  induction f with
  | zero =>
    exact ⟨fun b p q hp h => absurd h nofun, fun p q hp h => absurd h nofun,
           fun p q hp h => absurd h nofun, fun p q hp h => absurd h nofun,
           fun p q hp h => absurd h nofun⟩
  | succ f ih =>
    obtain ⟨ihdirs, ihdir, ihargs, ihskip, ihblock⟩ := ih
    refine ⟨?_, ?_, ?_, ?_, ?_⟩
    · intro b p q hp h
      rw [runP_succ] at h
      by_cases h1 : p.current.type = .newline
      · simp only [runPStep, if_pos h1] at h
        cases hadv : advanceP p with
        | error e => rw [hadv] at h; exact absurd h nofun
        | ok p2 =>
          simp only [hadv] at h
          obtain ⟨hc0, hinv0⟩ := advanceP_clean p p2 hadv
          obtain ⟨hc1, hinv1⟩ := ihdirs b p2 q hinv0 h
          exact ⟨cleanTo_trans hc0 hc1, hinv1⟩
      · by_cases h2 : p.current.type = .eof
        · simp only [runPStep, if_neg h1, if_pos h2] at h
          simp only [PResult.ok.injEq] at h
          subst h
          exact ⟨cleanTo_refl _, hp⟩
        · by_cases h3 : p.current.type = .rightBrace
          · simp only [runPStep, if_neg h1, if_neg h2, if_pos h3] at h
            split at h
            · simp only [PResult.ok.injEq] at h
              subst h
              exact ⟨cleanTo_refl _, hp⟩
            · exact absurd h nofun
          · simp only [runPStep, if_neg h1, if_neg h2, if_neg h3] at h
            cases hd : runP f (.dir p) with
            | err e => rw [hd] at h; exact absurd h nofun
            | noFuel => rw [hd] at h; exact absurd h nofun
            | ok v =>
              obtain ⟨d, p2⟩ := v
              simp only [hd] at h
              cases hds2 : runP f (.dirs b p2) with
              | err e => rw [hds2] at h; exact absurd h nofun
              | noFuel => rw [hds2] at h; exact absurd h nofun
              | ok v2 =>
                obtain ⟨ds2, p3⟩ := v2
                simp only [hds2] at h
                simp only [PResult.ok.injEq] at h
                subst h
                obtain ⟨hcA, hinvA⟩ := ihdir p (d, p2) hp hd
                obtain ⟨hcB, hinvB⟩ := ihdirs b p2 (ds2, p3) hinvA hds2
                exact ⟨cleanTo_trans hcA hcB, hinvB⟩
    · intro p q hp h
      rw [runP_succ] at h
      simp only [runPStep] at h
      cases ha : runP f (.args p) with
      | err e => rw [ha] at h; exact absurd h nofun
      | noFuel => rw [ha] at h; exact absurd h nofun
      | ok v =>
        obtain ⟨args, p1⟩ := v
        simp only [ha] at h
        obtain ⟨hcA, hinvA⟩ := ihargs p (args, p1) hp ha
        by_cases he : args.isEmpty
        · rw [if_pos he] at h; exact absurd h nofun
        · rw [if_neg he] at h
          cases hs : runP f (.skipNl p1) with
          | err e => rw [hs] at h; exact absurd h nofun
          | noFuel => rw [hs] at h; exact absurd h nofun
          | ok p2 =>
            simp only [hs] at h
            obtain ⟨hcB, hinvB⟩ := ihskip p1 p2 hinvA hs
            by_cases hbb : p2.current.type = .leftBrace
            · rw [if_pos hbb] at h
              cases hbl : runP f (.block p2) with
              | err e => rw [hbl] at h; exact absurd h nofun
              | noFuel => rw [hbl] at h; exact absurd h nofun
              | ok v2 =>
                obtain ⟨subs, p3⟩ := v2
                simp only [hbl] at h
                obtain ⟨hcC, hinvC⟩ := ihblock p2 (subs, p3) hinvB hbl
                by_cases hsemi : p3.current.type = .semicolon
                · rw [if_pos hsemi] at h
                  cases hadv : advanceP p3 with
                  | error e => rw [hadv] at h; exact absurd h nofun
                  | ok p4 =>
                    simp only [hadv] at h
                    simp only [PResult.ok.injEq] at h
                    subst h
                    obtain ⟨hcD, hinvD⟩ := advanceP_clean p3 p4 hadv
                    exact ⟨cleanTo_trans hcA (cleanTo_trans hcB
                      (cleanTo_trans hcC hcD)), hinvD⟩
                · rw [if_neg hsemi] at h
                  simp only [PResult.ok.injEq] at h
                  subst h
                  exact ⟨cleanTo_trans hcA (cleanTo_trans hcB hcC), hinvC⟩
            · rw [if_neg hbb] at h
              by_cases hnl : p1.current.type = .newline
              · rw [if_pos hnl] at h
                simp only [PResult.ok.injEq] at h
                subst h
                exact ⟨cleanTo_trans hcA hcB, hinvB⟩
              · rw [if_neg hnl] at h
                by_cases hsemi : p2.current.type = .semicolon
                · rw [if_pos hsemi] at h
                  cases hadv : advanceP p2 with
                  | error e => rw [hadv] at h; exact absurd h nofun
                  | ok p3 =>
                    simp only [hadv] at h
                    simp only [PResult.ok.injEq] at h
                    subst h
                    obtain ⟨hcD, hinvD⟩ := advanceP_clean p2 p3 hadv
                    exact ⟨cleanTo_trans hcA (cleanTo_trans hcB hcD), hinvD⟩
                · rw [if_neg hsemi] at h
                  by_cases hre : p2.current.type = .rightBrace ∨ p2.current.type = .eof
                  · rw [if_pos hre] at h
                    simp only [PResult.ok.injEq] at h
                    subst h
                    exact ⟨cleanTo_trans hcA hcB, hinvB⟩
                  · rw [if_neg hre] at h
                    exact absurd h nofun
    · intro p q hp h
      rw [runP_succ] at h
      by_cases h1 : p.current.type = .lineContinuation
      · simp only [runPStep, if_pos h1] at h
        cases hadv : advanceP p with
        | error e => rw [hadv] at h; exact absurd h nofun
        | ok p2 =>
          simp only [hadv] at h
          obtain ⟨hc0, hinv0⟩ := advanceP_clean p p2 hadv
          obtain ⟨hc1, hinv1⟩ := ihargs p2 q hinv0 h
          exact ⟨cleanTo_trans hc0 hc1, hinv1⟩
      · by_cases h2 : p.current.type = .argument
        · simp only [runPStep, if_neg h1, if_pos h2] at h
          cases hadv : advanceP p with
          | error e => rw [hadv] at h; exact absurd h nofun
          | ok p2 =>
            simp only [hadv] at h
            cases ha : runP f (.args p2) with
            | err e => rw [ha] at h; exact absurd h nofun
            | noFuel => rw [ha] at h; exact absurd h nofun
            | ok v =>
              obtain ⟨args2, p3⟩ := v
              simp only [ha] at h
              simp only [PResult.ok.injEq] at h
              subst h
              obtain ⟨hc0, hinv0⟩ := advanceP_clean p p2 hadv
              obtain ⟨hc1, hinv1⟩ := ihargs p2 (args2, p3) hinv0 ha
              exact ⟨cleanTo_trans hc0 hc1, hinv1⟩
        · simp only [runPStep, if_neg h1, if_neg h2] at h
          simp only [PResult.ok.injEq] at h
          subst h
          exact ⟨cleanTo_refl _, hp⟩
    · intro p q hp h
      rw [runP_succ] at h
      by_cases h1 : p.current.type = .newline
      · simp only [runPStep, if_pos h1] at h
        cases hadv : advanceP p with
        | error e => rw [hadv] at h; exact absurd h nofun
        | ok p2 =>
          simp only [hadv] at h
          obtain ⟨hc0, hinv0⟩ := advanceP_clean p p2 hadv
          obtain ⟨hc1, hinv1⟩ := ihskip p2 q hinv0 h
          exact ⟨cleanTo_trans hc0 hc1, hinv1⟩
      · simp only [runPStep, if_neg h1] at h
        simp only [PResult.ok.injEq] at h
        subst h
        exact ⟨cleanTo_refl _, hp⟩
    · intro p q hp h
      rw [runP_succ] at h
      by_cases h1 : p.current.type = .leftBrace
      · simp only [runPStep, if_neg (by simp [h1] : ¬p.current.type ≠ .leftBrace)] at h
        cases hadv : advanceP p with
        | error e => rw [hadv] at h; exact absurd h nofun
        | ok p1 =>
          simp only [hadv] at h
          obtain ⟨hc0, hinv0⟩ := advanceP_clean p p1 hadv
          cases hds : runP f (.dirs true p1) with
          | err e => rw [hds] at h; exact absurd h nofun
          | noFuel => rw [hds] at h; exact absurd h nofun
          | ok v =>
            obtain ⟨subs, p2⟩ := v
            simp only [hds] at h
            obtain ⟨hc1, hinv1⟩ := ihdirs true p1 (subs, p2) hinv0 hds
            by_cases hrb : p2.current.type ≠ .rightBrace
            · rw [if_pos hrb] at h; exact absurd h nofun
            · rw [if_neg hrb] at h
              cases hadv2 : advanceP p2 with
              | error e => rw [hadv2] at h; exact absurd h nofun
              | ok p3 =>
                simp only [hadv2] at h
                simp only [PResult.ok.injEq] at h
                subst h
                obtain ⟨hc2, hinv2⟩ := advanceP_clean p2 p3 hadv2
                exact ⟨cleanTo_trans hc0 (cleanTo_trans hc1 hc2), hinv2⟩
      · simp only [runPStep, if_pos (by simp [h1] : p.current.type ≠ .leftBrace)] at h
        exact absurd h nofun

theorem runP_dirsFalse_eof : ∀ (f : Nat) (p : PState) (ds : List Directive) (p2 : PState),
    runP f (.dirs false p) = .ok (ds, p2) → p2.current.type = .eof := by
  intro f
  induction f with
  | zero => intro p ds p2 h; exact absurd h nofun
  | succ f ih =>
    intro p ds p2 h
    rw [runP_succ] at h
    by_cases h1 : p.current.type = .newline
    · simp only [runPStep, if_pos h1] at h
      cases hadv : advanceP p with
      | error e => rw [hadv] at h; exact absurd h nofun
      | ok pn =>
        simp only [hadv] at h
        exact ih pn ds p2 h
    · by_cases h2 : p.current.type = .eof
      · simp only [runPStep, if_neg h1, if_pos h2] at h
        simp only [PResult.ok.injEq] at h
        injection h with hdrop h5
        subst h5
        exact h2
      · by_cases h3 : p.current.type = .rightBrace
        · simp only [runPStep, if_neg h1, if_neg h2, if_pos h3] at h
          rw [if_neg (by exact nofun : ¬false = true)] at h
          exact absurd h nofun
        · simp only [runPStep, if_neg h1, if_neg h2, if_neg h3] at h
          cases hd : runP f (.dir p) with
          | err e => rw [hd] at h; exact absurd h nofun
          | noFuel => rw [hd] at h; exact absurd h nofun
          | ok v =>
            obtain ⟨d, pn⟩ := v
            simp only [hd] at h
            cases hds2 : runP f (.dirs false pn) with
            | err e => rw [hds2] at h; exact absurd h nofun
            | noFuel => rw [hds2] at h; exact absurd h nofun
            | ok v2 =>
              obtain ⟨ds2, p3⟩ := v2
              simp only [hds2] at h
              simp only [PResult.ok.injEq] at h
              injection h with hdrop h5
              subst h5
              exact ih pn ds2 p3 hds2

/-- A successful parse touches only non-forbidden characters; whatever is
left unread is empty or the single trailing Control-Z. -/
theorem parse_ok_forbiddenFree (input : List Char) (cu : ConfigurationUnit)
    (h : Parse input = .ok cu) :
    ∀ c ∈ input, IsForbidden c = false ∨ c = '\x1A' := by
  unfold Parse ParseWith at h
  cases hadv : advanceTok (initLexer input) with
  | error e => rw [hadv] at h; exact absurd h nofun
  | ok v =>
    obtain ⟨t, l⟩ := v
    simp only [hadv] at h
    simp only [parseDirectives] at h
    cases hds : runP (4 * input.length + 8) (.dirs false ⟨l, t⟩) with
    | err e => rw [hds] at h; exact absurd h nofun
    | noFuel => rw [hds] at h; exact absurd h nofun
    | ok v2 =>
      obtain ⟨ds, p2⟩ := v2
      obtain ⟨hc0, hinv0⟩ := advanceTok_clean (initLexer input) t l hadv
      obtain ⟨hc1, hinv1⟩ :=
        (runP_clean (4 * input.length + 8)).1 false ⟨l, t⟩ (ds, p2) hinv0 hds
      have heof : p2.current.type = .eof := runP_dirsFalse_eof _ _ ds p2 hds
      have hrem : p2.lx.rem = [] ∨ p2.lx.rem = ['\x1A'] := hinv1 heof
      intro c hcmem
      obtain ⟨p1, he1, hp1⟩ := hc0
      obtain ⟨pm, he2, hp2⟩ := hc1
      rw [show (initLexer input).rem = input from rfl] at he1
      rw [he1] at hcmem
      rcases List.mem_append.mp hcmem with hm | hm
      · exact Or.inl (hp1 c hm)
      · rw [show (PState.mk l t).lx.rem = l.rem from rfl] at he2
        rw [he2] at hm
        rcases List.mem_append.mp hm with hm2 | hm2
        · exact Or.inl (hp2 c hm2)
        · rcases hrem with hr | hr <;> rw [hr] at hm2
          · simp at hm2
          · simp only [List.mem_singleton] at hm2
            exact Or.inr hm2

/-- C5 counterexample: the claim asserts that an input containing a
noncharacter fails with a *forbidden-character* error; but when the
noncharacter immediately follows an escaping backslash inside a quoted
string, the parse fails with an *invalid-escape* error instead. -/
theorem claim_C5_counterexample :
    ParseString "\"\\\uFDD0\"" = .err (.invalidEscapeQuoted 1) :=
  Parse_eval 0 (by decide) (by decide) (by decide)

/-- Claim C5 (amended): every input containing a noncharacter code point
(`U+FDD0..U+FDEF`, or low 16 bits `0xFFFE`/`0xFFFF`) fails to parse; a
noncharacter met unescaped — at a token start, inside a comment, or inside
a quoted string — raises the forbidden-character error of that place.  (The
unassigned-code-point half of the original claim is decided by the full
Unicode database, which is not part of this repository.) -/
theorem claim_C5_nonCharacters :
    (∀ (input : List Char) (c : Char), c ∈ input → isNonCharacter c = true →
      (Parse input).isOk = false) ∧
    ParseString "\uFDD0" = .err (.forbiddenChar 1 1) ∧
    ParseString "#\uFDD0" = .err (.forbiddenInComment 1) ∧
    ParseString "\"\uFDD0\"" = .err (.forbiddenInString 1) := by
  refine ⟨?_, Parse_eval 0 (by decide) (by decide) (by decide),
    Parse_eval 0 (by decide) (by decide) (by decide),
    Parse_eval 0 (by decide) (by decide) (by decide)⟩
  intro input c hmem hnc
  cases hp : Parse input with
  | ok cu =>
    exfalso
    rcases parse_ok_forbiddenFree input cu hp c hmem with hf | hz
    · have ht := isNonCharacter_forbidden c hnc
      rw [ht] at hf
      exact absurd hf nofun
    · subst hz
      exact absurd hnc (by decide)
  | err e => rfl
  | noFuel => rfl

theorem claim_C5_witness :
    (Parse ['\uFDD0']).isOk = false ∧ ParseString "\uFDD0" = .err (.forbiddenChar 1 1) :=
  ⟨claim_C5_nonCharacters.1 ['\uFDD0'] '\uFDD0' (by simp) (by decide),
   claim_C5_nonCharacters.2.1⟩


/-! ## Claim C4: CRLF normalisation -/

/-- Modelled from the spec: the claim's input transformation — replace each
lone LF line terminator (an LF not already preceded by CR) with the
two-character CRLF sequence. -/
def lfToCrlf : List Char → List Char
  | [] => []
  | '\r' :: '\n' :: rest => '\r' :: '\n' :: lfToCrlf rest
  | '\n' :: rest => '\r' :: '\n' :: lfToCrlf rest
  | c :: rest => c :: lfToCrlf rest

/-- C4 counterexample: the claim asserts replacing lone LF terminators by
CRLF never changes the directive tree; but a triple-quoted argument copies
its terminators verbatim into the value, so the tree changes: the argument
becomes "x\r\ny" instead of "x\ny". -/
theorem claim_C4_counterexample :
    Parse (lfToCrlf "\"\"\"x\ny\"\"\"".data) ≠ Parse "\"\"\"x\ny\"\"\"".data ∧
    Parse "\"\"\"x\ny\"\"\"".data = .ok ⟨[.mk ["x\ny"] []]⟩ ∧
    Parse (lfToCrlf "\"\"\"x\ny\"\"\"".data) = .ok ⟨[.mk ["x\x0d\ny"] []]⟩ := by
  have h1 : Parse "\"\"\"x\ny\"\"\"".data = .ok ⟨[.mk ["x\ny"] []]⟩ :=
    Parse_eval 8 (by decide) (by decide) (by decide)
  have h2 : Parse (lfToCrlf "\"\"\"x\ny\"\"\"".data) = .ok ⟨[.mk ["x\x0d\ny"] []]⟩ :=
    Parse_eval 8 (by decide) (by decide) (by decide)
  refine ⟨?_, h1, h2⟩
  rw [h1, h2]
  intro hne
  simp only [PResult.ok.injEq, ConfigurationUnit.mk.injEq] at hne
  exact absurd hne (by decide)

/-- Claim C4 (amended): a CR immediately followed by LF is consumed as a
single line terminator — `scanNewline` consumes both characters, produces
one newline token at the current position, advances the line counter by
exactly one and resets the column to 1, exactly as for a lone LF; at the
token level a CRLF yields one newline token.  (Outside triple-quoted
arguments this makes CRLF and LF interchangeable; inside them terminators
are copied verbatim, so the full-tree claim fails — see the
counterexample.) -/
theorem claim_C4_crlfSingleTerminator :
    (∀ (l : Lexer) (rest : List Char), l.rem = '\r' :: '\n' :: rest →
      scanNewline l = (⟨.newline, "", l.line, l.column⟩,
        ⟨rest, l.line + 1, 1, l.start⟩)) ∧
    (∀ (l : Lexer) (rest : List Char), l.rem = '\n' :: rest →
      scanNewline l = (⟨.newline, "", l.line, l.column⟩,
        ⟨rest, l.line + 1, 1, l.start⟩)) ∧
    (∀ (rest : List Char) (line col : Nat),
      NextToken ⟨'\r' :: '\n' :: rest, line, col, false⟩ =
        .ok (⟨.newline, "", line, col⟩, ⟨rest, line + 1, 1, false⟩)) := by
  refine ⟨?_, ?_, ?_⟩
  · intro l rest hrem
    obtain ⟨rem0, line, col, st⟩ := l
    simp only at hrem
    subst hrem
    rfl
  · intro l rest hrem
    obtain ⟨rem0, line, col, st⟩ := l
    simp only at hrem
    subst hrem
    rfl
  · intro rest line col
    rfl

theorem claim_C4_witness :
    scanNewline ⟨['\r', '\n', 'a'], 3, 5, false⟩ =
      (⟨.newline, "", 3, 5⟩, ⟨['a'], 4, 1, false⟩) ∧
    scanNewline ⟨['\n', 'a'], 3, 5, false⟩ =
      (⟨.newline, "", 3, 5⟩, ⟨['a'], 4, 1, false⟩) ∧
    NextToken ⟨['\r', '\n', 'a'], 3, 5, false⟩ =
      .ok (⟨.newline, "", 3, 5⟩, ⟨['a'], 4, 1, false⟩) :=
  ⟨claim_C4_crlfSingleTerminator.1 ⟨['\r', '\n', 'a'], 3, 5, false⟩ ['a'] rfl,
   claim_C4_crlfSingleTerminator.2.1 ⟨['\n', 'a'], 3, 5, false⟩ ['a'] rfl,
   claim_C4_crlfSingleTerminator.2.2 ['a'] 3 5⟩

end Confetti